import Mathlib

/-!
# Verification of the keyhunter secret scanner

A shallow embedding of the keyhunter scanning pipeline
(crates/keyhunter-core and crates/keyhunter-cli) in Lean 4, together with
proofs and refutations of the specification claims.

Modelling conventions:
* Byte buffers, file contents, anchors, pattern texts and JSON output are
  `List Nat` (each element a byte value < 256).
* The external regex engines (`regex::bytes::Regex`, `regex_automata`'s meta
  engine) are modelled as oracle functions of type `Bytes → List (Nat × Nat)`
  returning the successive extraction spans (half-open, group 1 preferred
  over group 0) that the engine's iteration produces on a haystack.
  Concrete instantiations used in scenario theorems implement leftmost,
  greedy matching for specific patterns of the rule catalog.
* The Aho-Corasick automaton over the anchor table is modelled concretely
  by `acFindIter` with leftmost-longest, non-overlapping semantics.
* `f32` ratio comparison `printable / len < 0.25` in `is_probably_binary`
  is modelled exactly on rationals as `4 * printable < len`.
* `HashSet` iteration order (nondeterministic in Rust) is an explicit
  parameter `ruleOrder`; `HashSet`-based dedup is an explicit `seen` list.
-/

namespace KeyHunter

/-- Byte strings: file contents, anchors, pattern texts, JSON output. -/
abbrev Bytes := List Nat

/-- Bytes of an ASCII string literal (all characters below 0x80). -/
def asciiBytes (s : String) : Bytes := s.data.map Char.toNat

/-- engine_bytes.rs `is_probably_binary`: printable ASCII predicate
`matches!(b, 0x09 | 0x0A | 0x0D) || (0x20..=0x7E).contains(&b)`. -/
def printableByte (b : Nat) : Bool :=
  b == 0x09 || b == 0x0A || b == 0x0D || (0x20 ≤ b && b ≤ 0x7E)

/-- engine_bytes.rs `is_probably_binary`: empty buffers are not binary; a NUL
byte means binary; otherwise binary iff the printable ratio is below 0.25
(the `f32` comparison `printable / len < 0.25` is modelled exactly as
`4 * printable < len`). -/
def isProbablyBinary (buf : Bytes) : Bool :=
  if buf.isEmpty then false
  else if buf.any (· == 0) then true
  else 4 * buf.countP printableByte < buf.length

/-! ## UTF-8 lossy decoding (`String::from_utf8_lossy`), at the byte level -/

/-- Continuation byte 0x80..=0xBF. -/
def utf8Cont (b : Nat) : Bool := 0x80 ≤ b && b ≤ 0xBF

/-- A valid 1-byte (ASCII) encoding heads the buffer. -/
def utf8Head1 : Bytes → Bool
  | b0 :: _ => b0 ≤ 0x7F
  | _ => false

/-- A valid 2-byte encoding heads the buffer. -/
def utf8Head2 : Bytes → Bool
  | b0 :: b1 :: _ => (0xC2 ≤ b0 && b0 ≤ 0xDF) && utf8Cont b1
  | _ => false

/-- A valid 3-byte encoding heads the buffer (excluding overlong forms and
surrogates, as UTF-8 requires). -/
def utf8Head3 : Bytes → Bool
  | b0 :: b1 :: b2 :: _ =>
    (((b0 == 0xE0) && (0xA0 ≤ b1 && b1 ≤ 0xBF)) ||
     ((0xE1 ≤ b0 && b0 ≤ 0xEC) && utf8Cont b1) ||
     ((b0 == 0xED) && (0x80 ≤ b1 && b1 ≤ 0x9F)) ||
     ((0xEE ≤ b0 && b0 ≤ 0xEF) && utf8Cont b1)) && utf8Cont b2
  | _ => false

/-- A valid 4-byte encoding heads the buffer (scalar values up to U+10FFFF). -/
def utf8Head4 : Bytes → Bool
  | b0 :: b1 :: b2 :: b3 :: _ =>
    (((b0 == 0xF0) && (0x90 ≤ b1 && b1 ≤ 0xBF)) ||
     ((0xF1 ≤ b0 && b0 ≤ 0xF3) && utf8Cont b1) ||
     ((b0 == 0xF4) && (0x80 ≤ b1 && b1 ≤ 0x8F))) && utf8Cont b2 && utf8Cont b3
  | _ => false

/-- Byte length of a valid UTF-8 scalar-value encoding at the head of the
buffer; `none` when the head is not a valid encoding.  The four guards are
mutually exclusive (they require disjoint leading-byte ranges). -/
def utf8CharLen? (l : Bytes) : Option Nat :=
  if utf8Head1 l then some 1
  else if utf8Head2 l then some 2
  else if utf8Head3 l then some 3
  else if utf8Head4 l then some 4
  else none

/-- Required range for the first continuation byte after lead `b0`. -/
def utf8Cont1Ok (b0 b1 : Nat) : Bool :=
  if b0 == 0xE0 then 0xA0 ≤ b1 && b1 ≤ 0xBF
  else if b0 == 0xED then 0x80 ≤ b1 && b1 ≤ 0x9F
  else if b0 == 0xF0 then 0x90 ≤ b1 && b1 ≤ 0xBF
  else if b0 == 0xF4 then 0x80 ≤ b1 && b1 ≤ 0x8F
  else utf8Cont b1

/-- Number of bytes consumed for one U+FFFD replacement on invalid input
(substitution of maximal subparts, as in Rust's `from_utf8_lossy`): the
longest valid prefix of a multi-byte sequence is skipped, else one byte. -/
def utf8InvalidSkip : Bytes → Nat
  | b0 :: b1 :: b2 :: _ =>
    if 0xE0 ≤ b0 && b0 ≤ 0xEF then (if utf8Cont1Ok b0 b1 then 2 else 1)
    else if 0xF0 ≤ b0 && b0 ≤ 0xF4 then
      (if utf8Cont1Ok b0 b1 then (if utf8Cont b2 then 3 else 2) else 1)
    else 1
  | b0 :: b1 :: [] =>
    if (0xE0 ≤ b0 && b0 ≤ 0xEF) || (0xF0 ≤ b0 && b0 ≤ 0xF4) then
      (if utf8Cont1Ok b0 b1 then 2 else 1)
    else 1
  | _ => 1

/-- UTF-8 bytes of the replacement character U+FFFD. -/
def replacementBytes : Bytes := [0xEF, 0xBF, 0xBD]

/-- Fueled worker for `utf8Lossy`; the fuel bounds the number of decoded
units and `utf8Lossy` supplies `buf.length`, which suffices because every
step consumes at least one byte. -/
def utf8LossyAux : Nat → Bytes → Bytes
  | 0, _ => []
  | _, [] => []
  | fuel + 1, l =>
    match utf8CharLen? l with
    | some k => l.take k ++ utf8LossyAux fuel (l.drop k)
    | none => replacementBytes ++ utf8LossyAux fuel (l.drop (utf8InvalidSkip l))

/-- Byte-level model of `String::from_utf8_lossy(raw).to_string()`: the UTF-8
bytes of the lossily decoded string. -/
def utf8Lossy (l : Bytes) : Bytes := utf8LossyAux l.length l

/-- Fueled worker for `utf8Valid`. -/
def utf8ValidAux : Nat → Bytes → Bool
  | _, [] => true
  | 0, _ => false
  | fuel + 1, l =>
    match utf8CharLen? l with
    | some k => utf8ValidAux fuel (l.drop k)
    | none => false

/-- The buffer is a valid UTF-8 encoding. -/
def utf8Valid (l : Bytes) : Bool := utf8ValidAux l.length l

/-! Basic facts about the UTF-8 model. -/

theorem utf8CharLen?_pos {l : Bytes} {k : Nat} (h : utf8CharLen? l = some k) :
    1 ≤ k := by
  unfold utf8CharLen? at h
  split_ifs at h <;> simp_all <;> omega

theorem utf8Lossy_valid_aux :
    ∀ (fuel : Nat) (l : Bytes), l.length ≤ fuel →
      utf8ValidAux fuel l = true → utf8LossyAux fuel l = l := by
  intro fuel
  induction fuel with
  | zero =>
    intro l hl _
    have : l = [] := List.eq_nil_of_length_eq_zero (Nat.le_zero.mp hl)
    subst this; rfl
  | succ fuel ih =>
    intro l hl hv
    cases l with
    | nil => rfl
    | cons b rest =>
      unfold utf8ValidAux at hv
      unfold utf8LossyAux
      cases hk : utf8CharLen? (b :: rest) with
      | none =>
        try rw [hk] at hv
        exact absurd hv (by simp)
      | some k =>
        try rw [hk] at hv
        try rw [hk]
        have hv' : utf8ValidAux fuel ((b :: rest).drop k) = true := hv
        have hk1 := utf8CharLen?_pos hk
        have hd : ((b :: rest).drop k).length ≤ fuel := by
          simp only [List.length_drop, List.length_cons]
          simp only [List.length_cons] at hl
          omega
        show List.take k (b :: rest) ++ utf8LossyAux fuel ((b :: rest).drop k) = b :: rest
        rw [ih _ hd hv']
        exact List.take_append_drop k (b :: rest)

/-- On valid UTF-8 input the lossy decoding is the identity (so the byte
length of the decoded string equals the byte length of the raw match). -/
theorem utf8Lossy_of_valid {l : Bytes} (hv : utf8Valid l = true) : utf8Lossy l = l :=
  utf8Lossy_valid_aux l.length l le_rfl hv

/-! ## Findings and the per-file stable sort (findings.rs) -/

/-- findings.rs `Finding`: `file_hash` is the file's basename, `value` the
extracted (lossily decoded) match text, `start_offset` the byte offset of the
match in the original file. -/
structure Finding where
  fileHash : Bytes
  value : Bytes
  startOffset : Nat
  deriving Repr, DecidableEq

/-- Byte-wise lexicographic strict order (Rust `String`/`[u8]` `cmp`). -/
def bytesLt : Bytes → Bytes → Bool
  | [], [] => false
  | [], _ :: _ => true
  | _ :: _, [] => false
  | a :: as, b :: bs => if a < b then true else if b < a then false else bytesLt as bs

/-- The total order used by findings.rs `sort_findings_stable`:
start_offset ascending, then value length descending, then value
lexicographically ascending. -/
def findingLE (a b : Finding) : Bool :=
  if a.startOffset < b.startOffset then true
  else if b.startOffset < a.startOffset then false
  else if b.value.length < a.value.length then true
  else if a.value.length < b.value.length then false
  else !(bytesLt b.value a.value)

/-- Stable insertion of one element into a sorted list. -/
def insertSorted {α : Type} (le : α → α → Bool) (x : α) : List α → List α
  | [] => [x]
  | y :: ys => if le x y then x :: y :: ys else y :: insertSorted le x ys

/-- Stable sort by a boolean total order (insertion sort).  Models Rust's
stable `sort_by`: the result is the unique sorted stable permutation. -/
def sortBy {α : Type} (le : α → α → Bool) (l : List α) : List α :=
  l.foldr (insertSorted le) []

/-- findings.rs `sort_findings_stable`. -/
def sortFindingsStable (l : List Finding) : List Finding := sortBy findingLE l

theorem insertSorted_perm {α : Type} (le : α → α → Bool) (x : α) :
    ∀ l : List α, (insertSorted le x l).Perm (x :: l) := by
  intro l
  induction l with
  | nil => simp [insertSorted]
  | cons y ys ih =>
    unfold insertSorted
    split
    · exact List.Perm.refl _
    · exact ((ih.cons y).trans (List.Perm.swap x y ys))

theorem sortBy_perm {α : Type} (le : α → α → Bool) (l : List α) :
    (sortBy le l).Perm l := by
  induction l with
  | nil => exact List.Perm.refl _
  | cons x xs ih =>
    exact (insertSorted_perm le x (sortBy le xs)).trans (ih.cons x)

/-! ## JSON output (streaming writer + serde_json item serialization) -/

/-- One hexadecimal digit, lowercase, as serde_json emits for `\u00XX`. -/
def hexDigit (n : Nat) : Nat := if n < 10 then 48 + n else 87 + n

/-- serde_json string escaping at the byte level: `"` and `\` get a
backslash, the short control escapes `\b \t \n \f \r` are used where they
exist, remaining control bytes become `\u00XX`; all other bytes are copied
verbatim (UTF-8 passes through unescaped). -/
def escapeJsonBytes (s : Bytes) : Bytes :=
  s.foldr (fun b acc =>
    if b == 34 then 92 :: 34 :: acc
    else if b == 92 then 92 :: 92 :: acc
    else if b == 8 then 92 :: 98 :: acc
    else if b == 9 then 92 :: 116 :: acc
    else if b == 10 then 92 :: 110 :: acc
    else if b == 12 then 92 :: 102 :: acc
    else if b == 13 then 92 :: 114 :: acc
    else if b < 32 then 92 :: 117 :: 48 :: 48 :: hexDigit (b / 16) :: hexDigit (b % 16) :: acc
    else b :: acc) []

/-- `serde_json::json!({"file_hash": .., "value": ..})` serialized by
`to_writer` (keys in BTreeMap order, which is alphabetical here). -/
def jsonItem (fileHash value : Bytes) : Bytes :=
  asciiBytes "\x7b\"file_hash\":\"" ++ escapeJsonBytes fileHash ++
  asciiBytes "\",\"value\":\"" ++ escapeJsonBytes value ++ asciiBytes "\"\x7d"

/-- The streaming JSON array writer: `[` on start, `,` between items, `]`
on end (scan.rs / lib.rs `scan_and_write`). -/
def writeItems (items : List (Bytes × Bytes)) : Bytes :=
  asciiBytes "[" ++
  (List.intercalate (asciiBytes ",") (items.map (fun p => jsonItem p.1 p.2))) ++
  asciiBytes "]"

/-! ## Anchor extraction (prefilter.rs `extract_anchors_from_pattern`) -/

/-- `needle` occurs as a contiguous substring of `hay` (Rust `str::contains`). -/
def isSubstring (needle : Bytes) : Bytes → Bool
  | [] => needle.isEmpty
  | h :: t => needle.isPrefixOf (h :: t) || isSubstring needle t

/-- ASCII alphanumeric. -/
def isAlnumB (b : Nat) : Bool :=
  (48 ≤ b && b ≤ 57) || (65 ≤ b && b ≤ 90) || (97 ≤ b && b ≤ 122)

/-- Characters allowed inside a literal run: `[A-Za-z0-9\-_./]`. -/
def allowByte (b : Nat) : Bool :=
  isAlnumB b || b == 45 || b == 95 || b == 46 || b == 47

/-- Regex metacharacters that flush a literal run. -/
def isMetaByte (b : Nat) : Bool :=
  b == 91 || b == 93 || b == 123 || b == 125 || b == 40 || b == 41 ||
  b == 63 || b == 42 || b == 43 || b == 124 || b == 94 || b == 36 || b == 92

/-- The curated high-signal literal list from prefilter.rs, in source order. -/
def curatedAnchors : List Bytes :=
  ["sk-", "sk_", "rk_", "ghp_", "gho_", "ghr_", "ghs_", "ghu_", "github_pat_",
   "glpat-", "xoxb-", "xoxp-", "xoxe-", "xoxs-", "xapp-", "hooks.slack.com",
   "slack.com", "AKIA", "ASIA", "A3T", "ABIA", "ACCA", "v1.0-", "cloudflare",
   "doo_v1_", "dop_v1_", "dor_v1_", "discord", "dropbox", "EAA", "facebook",
   "heroku", "HRKU-AA", "hf_", "api_org_", "lin_api_", "mailgun", "ntn_",
   "PMAK-", "pnu_", "ATATT3", "SG.", "sntrys_", "sntryu_", "shpat_", "shpca_",
   "shppa_", "shpss_", "telegram", "AIza", "ya29.", "openai", "cohere",
   "-----BEGIN ", "-----END ", "PRIVATE KEY", "RSA PRIVATE KEY",
   "EC PRIVATE KEY", "OPENSSH PRIVATE KEY"].map asciiBytes

/-- `HashSet::insert` on the candidate set, modelled as an order-preserving
list of distinct byte strings (the final sort makes the order immaterial). -/
def insertAnchor (out : List Bytes) (a : Bytes) : List Bytes :=
  if a ∈ out then out else out ++ [a]

/-- prefilter.rs `flush_literal`: keep the run iff its length is ≥ 3, and
clear the accumulator. -/
def flushLiteral (cur : Bytes) (out : List Bytes) : Bytes × List Bytes :=
  ([], if 3 ≤ cur.length then insertAnchor out cur else out)

/-- One step of the literal-run scanner over the pattern text; the state is
(`in_class`, current run, candidate set). -/
def literalScanStep (st : Bool × Bytes × List Bytes) (b : Nat) :
    Bool × Bytes × List Bytes :=
  let (inClass, cur, out) := st
  if b == 91 then
    let (c, o) := flushLiteral cur out
    (true, c, o)
  else if b == 93 then
    let (c, o) := flushLiteral cur out
    (false, c, o)
  else if inClass then (inClass, cur, out)
  else if isMetaByte b then
    let (c, o) := flushLiteral cur out
    (inClass, c, o)
  else if allowByte b then (inClass, cur ++ [b], out)
  else
    let (c, o) := flushLiteral cur out
    (inClass, c, o)

/-- Uppercase an ASCII byte (`to_ascii_uppercase`). -/
def toUpperB (b : Nat) : Nat := if 97 ≤ b && b ≤ 122 then b - 32 else b

/-- The stopword list of the filter pass. -/
def anchorStoplist : List Bytes :=
  ["KEY", "BEGIN", "END", "PRIVATE", "TOKEN", "ACCESS", "SECRET", "AUTH",
   "PASSWORD"].map asciiBytes

/-- prefilter.rs `is_stop`: too short, or uppercased form in the stoplist. -/
def isStopAnchor (s : Bytes) : Bool :=
  if s.length < 3 then true
  else anchorStoplist.any (fun w => s.map toUpperB == w)

/-- The short-anchor whitelist of the filter pass. -/
def shortAnchorWhitelist : List Bytes :=
  ["sk_", "rk_", "ghu_", "ghs_", "xoxp-", "xoxe-", "xoxs-", "xoxo-"].map asciiBytes

/-- prefilter.rs `has_sep`. -/
def hasSepByte (s : Bytes) : Bool :=
  s.any (fun b => b == 45 || b == 95 || b == 46 || b == 47)

/-- The filter pass on candidate anchors. -/
def keepAnchor (s : Bytes) : Bool :=
  if shortAnchorWhitelist.any (· == s) then true
  else if isStopAnchor s then false
  else if 6 ≤ s.length then true
  else if 4 ≤ s.length && hasSepByte s then true
  else s == asciiBytes "AIza" || s == asciiBytes "ya29."

/-- Deterministic anchor order: length descending, then lexicographic
ascending. -/
def anchorLE (a b : Bytes) : Bool :=
  if b.length < a.length then true
  else if a.length < b.length then false
  else !(bytesLt b a)

/-- prefilter.rs `extract_anchors_from_pattern`: curated literals contained
in the pattern text, fixed alternation expansions, literal runs of the
pattern scanner, then the filter pass and the deterministic sort. -/
def extractAnchorsFromPattern (pat : Bytes) : List Bytes :=
  let out : List Bytes :=
    curatedAnchors.foldl
      (fun out c => if isSubstring c pat then insertAnchor out c else out) []
  let out :=
    if isSubstring (asciiBytes "xox[pe]") pat || isSubstring (asciiBytes "xox(?:p|e)") pat
    then insertAnchor (insertAnchor out (asciiBytes "xoxp-")) (asciiBytes "xoxe-") else out
  let out :=
    if isSubstring (asciiBytes "xox[os]") pat || isSubstring (asciiBytes "xox(?:o|s)") pat
    then insertAnchor (insertAnchor out (asciiBytes "xoxo-")) (asciiBytes "xoxs-") else out
  let out :=
    if isSubstring (asciiBytes "(?:ghu|ghs)_") pat || isSubstring (asciiBytes "ghu|ghs)_") pat
    then insertAnchor (insertAnchor out (asciiBytes "ghu_")) (asciiBytes "ghs_") else out
  let out :=
    if isSubstring (asciiBytes "(?:sk|rk)_") pat || isSubstring (asciiBytes "sk|rk)_") pat
    then insertAnchor (insertAnchor out (asciiBytes "sk_")) (asciiBytes "rk_") else out
  let st := pat.foldl literalScanStep (false, [], out)
  let fin := flushLiteral st.2.1 st.2.2
  sortBy anchorLE (fin.2.filter keepAnchor)

/-! ## Prefilter plan construction (prefilter.rs `build_prefilter_plan`) -/

/-- `PrefilterPlan` minus the automaton and regex cache: the automaton is
derived from `anchors` by `acFindIter` below, and the lazily compiled
precise regexes are supplied as an oracle (`ScanCtx.matchers`). -/
structure PrefilterPlan where
  anchors : List Bytes
  anchorToRules : List (List Nat)
  rulePatterns : List Bytes
  deriving Repr

/-- `.iter().enumerate()` from a starting index. -/
def enumFrom {α : Type} : Nat → List α → List (Nat × α)
  | _, [] => []
  | i, a :: as => (i, a) :: enumFrom (i + 1) as

/-- First phase of `build_prefilter_plan`: extract each rule's anchors and
intern them into the anchor table, recording rule → anchor-id lists. -/
def buildAnchorTables (specs : List Bytes) : List Bytes × List (List Nat) :=
  specs.foldl
    (fun (st : List Bytes × List (List Nat)) pat =>
      let anchors := extractAnchorsFromPattern pat
      let p :=
        anchors.foldl
          (fun (p : List Bytes × List Nat) a =>
            match p.1.findIdx? (· == a) with
            | some i => (p.1, p.2 ++ [i])
            | none => (p.1 ++ [a], p.2 ++ [p.1.length]))
          (st.1, [])
      (p.1, st.2 ++ [p.2]))
    ([], [])

/-- Second phase: invert `rule → anchor ids` into `anchor id → rules`. -/
def invertAnchorMap (numAnchors : Nat) (ruleAids : List (List Nat)) :
    List (List Nat) :=
  (enumFrom 0 ruleAids).foldl
    (fun acc p =>
      p.2.foldl (fun acc aid => acc.set aid (acc.getD aid [] ++ [p.1])) acc)
    (List.replicate numAnchors [])

/-- prefilter.rs `build_prefilter_plan`. -/
def buildPrefilterPlan (specs : List Bytes) : PrefilterPlan :=
  let t := buildAnchorTables specs
  { anchors := t.1
    anchorToRules := invertAnchorMap t.1.length t.2
    rulePatterns := specs }

/-! ## The Aho-Corasick prefilter automaton

`AhoCorasickBuilder::match_kind(LeftmostLongest)` over the anchor table:
non-overlapping matches found left to right; at each match start the longest
matching pattern wins (two distinct anchors of equal length cannot match at
the same position, so the longest match is unique).  Empty patterns never
occur (anchors have length ≥ 3); the model ignores them to keep the scan
productive. -/

/-- The longest anchor matching at the head of `rest`, as
(anchor id, anchor length). -/
def bestAnchorAt (anchors : List Bytes) (rest : Bytes) : Option (Nat × Nat) :=
  (enumFrom 0 anchors).foldl
    (fun acc p =>
      if p.2.isPrefixOf rest && !p.2.isEmpty then
        match acc with
        | none => some (p.1, p.2.length)
        | some q => if q.2 < p.2.length then some (p.1, p.2.length) else acc
      else acc)
    none

/-- Fueled worker for `acFindIter`; each step consumes ≥ 1 byte, so fuel
`buf.length` suffices. -/
def acFindIterAux (anchors : List Bytes) : Nat → Bytes → Nat → List (Nat × Nat)
  | 0, _, _ => []
  | fuel + 1, rest, pos =>
    match rest with
    | [] => []
    | _ :: tail =>
      match bestAnchorAt anchors rest with
      | some al =>
        (pos, al.1) :: acFindIterAux anchors fuel (rest.drop al.2) (pos + al.2)
      | none => acFindIterAux anchors fuel tail (pos + 1)

/-- `plan.ac.find_iter(buf)` as a list of `(match start, pattern id)`. -/
def acFindIter (anchors : List Bytes) (buf : Bytes) : List (Nat × Nat) :=
  acFindIterAux anchors buf.length buf 0

/-! ## Per-buffer scan (engine_bytes.rs `scan_buffer_with_prefilter`) -/

/-- prefilter.rs window paddings. -/
def WINDOW_BEFORE : Nat := 128

def WINDOW_AFTER : Nat := 1024

/-- The 11-byte literal `PRIVATE KEY`. -/
def privateKeyLit : Bytes := asciiBytes "PRIVATE KEY"

/-- Mirrors `anchor.windows(12).any(|w| w == b"PRIVATE KEY")`: each 12-byte
window of the anchor is compared against the 11-byte literal (and therefore
never matches — a latent inertness in the source, mirrored faithfully). -/
def isPrivAnchor (a : Bytes) : Bool :=
  (List.range a.length).any
    (fun i => i + 12 ≤ a.length && ((a.drop i).take 12 == privateKeyLit))

/-- The candidate window around an AC hit at `pos` for anchor `aid`:
`[pos - before, min (pos + after) bufLen)` with the PEM widenings. -/
def windowFor (anchors : List Bytes) (bufLen pos aid : Nat) : Nat × Nat :=
  let anchor := anchors.getD aid []
  let isBegin := (asciiBytes "-----BEGIN ").isPrefixOf anchor
  let isEnd := (asciiBytes "-----END ").isPrefixOf anchor
  let isPriv := isPrivAnchor anchor
  let before := if isEnd || isPriv then max WINDOW_BEFORE 2048 else WINDOW_BEFORE
  let after := if isBegin || isPriv then max WINDOW_AFTER (16 * 1024) else WINDOW_AFTER
  (pos - before, min (pos + after) bufLen)

/-- Append a candidate window, merging it into the previous one when its
start does not pass the previous end (the accumulator is kept reversed). -/
def pushWindow (acc : List (Nat × Nat × List Nat)) (s e : Nat) (aid : Nat) :
    List (Nat × Nat × List Nat) :=
  match acc with
  | last :: rest =>
    if s ≤ last.2.1 then (last.1, max last.2.1 e, last.2.2 ++ [aid]) :: rest
    else (s, e, [aid]) :: last :: rest
  | [] => [(s, e, [aid])]

/-- Sort order for AC hits (`hits.sort_by_key(|h| h.0)`, stable). -/
def posLE (a b : Nat × Nat) : Bool := a.1 ≤ b.1

/-- Step 2 of the per-buffer scan: sort the hits and build merged windows
`(start, end, anchor ids)`. -/
def buildWindows (anchors : List Bytes) (bufLen : Nat) (hits : List (Nat × Nat)) :
    List (Nat × Nat × List Nat) :=
  ((sortBy posLE hits).foldl
      (fun acc h =>
        let w := windowFor anchors bufLen h.1 h.2
        pushWindow acc w.1 w.2 h.2)
      []).reverse

/-- `HashSet` of rule indices collected for a window, enumerated with first
occurrences kept; the nondeterministic iteration order is applied on top by
`ScanCtx.ruleOrder`. -/
def dedupNats (l : List Nat) : List Nat :=
  (l.foldl (fun (acc : List Nat) x => if x ∈ acc then acc else acc ++ [x]) [])

/-- The oracle environment of a scan:
* `matchers ri` — the compiled precise regex of rule `ri` as the sequence of
  extraction spans (group 1 preferred over group 0) its match iteration
  yields on a haystack; `none` models a pattern that fails to compile
  (`get_or_compile_meta_regex` returning `None`).
* `ruleOrder` — the iteration order of the per-window `HashSet<usize>` of
  rule indices (nondeterministic in Rust). -/
structure ScanCtx where
  matchers : Nat → Option (Bytes → List (Nat × Nat))
  ruleOrder : List Nat → List Nat

/-- The emit loop shared by all engines: skip empty spans, lossily decode
the raw bytes, dedup by decoded value, record the file-global offset
`baseOff + ws + start`.  State is (seen set, findings so far). -/
def emitSpans (fileHash : Bytes) (baseOff ws : Nat) (window : Bytes)
    (spans : List (Nat × Nat)) (st : List Bytes × List Finding) :
    List Bytes × List Finding :=
  spans.foldl
    (fun st sp =>
      if sp.2 ≤ sp.1 then st
      else
        let raw := (window.drop sp.1).take (sp.2 - sp.1)
        let value := utf8Lossy raw
        if value ∈ st.1 then st
        else (value :: st.1,
              st.2 ++ [{ fileHash := fileHash, value := value,
                         startOffset := baseOff + ws + sp.1 }]))
    st

/-- engine_bytes.rs `scan_buffer_with_prefilter`: AC scan, window build and
merge, per-window rule aggregation, precise matching inside each window,
dedup by value within the buffer.  (When there are no AC hits there are no
windows, so the early `return` of the source is subsumed.) -/
def scanBufferWithPrefilter (ctx : ScanCtx) (plan : PrefilterPlan)
    (buf : Bytes) (baseOffset : Nat) (fileHash : Bytes) : List Finding :=
  let hits := acFindIter plan.anchors buf
  let windows := buildWindows plan.anchors buf.length hits
  (windows.foldl
      (fun st w =>
        let rules := ctx.ruleOrder
          (dedupNats ((w.2.2.map (fun aid => plan.anchorToRules.getD aid [])).flatten))
        let window := (buf.drop w.1).take (w.2.1 - w.1)
        rules.foldl
          (fun st ri =>
            match ctx.matchers ri with
            | some m => emitSpans fileHash baseOffset w.1 window (m window) st
            | none => st)
          st)
      ([], [])).2

/-! ## File-level byte engines (engine_bytes.rs) -/

/-- engine_bytes.rs thresholds. -/
def SMALL_FILE_MAX : Nat := 1 * 1024 * 1024

def CHUNK_SIZE : Nat := 4 * 1024 * 1024

def CHUNK_OVERLAP : Nat := 512

/-- engine_bytes.rs `scan_file_bytes_prefilter`: read the whole file, apply
the binary sniffer to the entire buffer, then scan it at base offset 0. -/
def scanFileBytesPrefilter (ctx : ScanCtx) (plan : PrefilterPlan)
    (file fileHash : Bytes) : List Finding :=
  if isProbablyBinary file then []
  else scanBufferWithPrefilter ctx plan file 0 fileHash

/-- State of the chunked read loop. -/
structure ChunkState where
  aborted : Bool
  seen : List Bytes
  found : List Finding
  carry : Bytes
  fileOffset : Nat

/-- The byte count one `read` call delivers: the scheduled count, clamped
to the chunk buffer size and to the remaining file length. -/
def readLen (file : Bytes) (off n : Nat) : Nat :=
  min (min n CHUNK_SIZE) (file.length - off)

/-- The buffer scanned for one chunk: the retained carry followed by the
freshly read bytes. -/
def chunkOf (file carry : Bytes) (off r : Nat) : Bytes :=
  carry ++ (file.drop off).take r

/-- Processing one non-binary chunk of `r` fresh bytes: scan the
carry-prefixed buffer at base `file_offset - carry.len()`, merge findings
with value dedup across chunks, retain the last `CHUNK_OVERLAP` bytes as
the next carry, and advance the file offset by `r`. -/
def chunkStep (ctx : ScanCtx) (plan : PrefilterPlan) (file fileHash : Bytes)
    (st : ChunkState) (r : Nat) : ChunkState :=
  let chunk := chunkOf file st.carry st.fileOffset r
  let base := st.fileOffset - st.carry.length
  let part := scanBufferWithPrefilter ctx plan chunk base fileHash
  let merged :=
    part.foldl
      (fun (p : List Bytes × List Finding) f =>
        if f.value ∈ p.1 then p else (f.value :: p.1, p.2 ++ [f]))
      (st.seen, st.found)
  let total := st.carry.length + r
  let keep := min CHUNK_OVERLAP total
  { aborted := false, seen := merged.1, found := merged.2,
    carry := (chunk.drop (total - keep)).take keep,
    fileOffset := st.fileOffset + r }

/-- engine_bytes.rs `scan_file_bytes_chunked_prefilter`, parameterized by
the read `schedule`: each entry is the byte count the `read` call reports.
The loop stops at end of file; the first chunk's 8 KiB head is sniffed for
binary content and a binary verdict abandons the file. -/
def scanChunksAux (ctx : ScanCtx) (plan : PrefilterPlan)
    (file fileHash : Bytes) : List Nat → ChunkState → ChunkState
  | [], st => st
  | n :: restSched, st =>
    if st.aborted then st
    else if readLen file st.fileOffset n = 0 then st
    else if st.fileOffset = 0 &&
        isProbablyBinary
          ((chunkOf file st.carry st.fileOffset
              (readLen file st.fileOffset n)).take
            (min (chunkOf file st.carry st.fileOffset
              (readLen file st.fileOffset n)).length 8192)) then
      scanChunksAux ctx plan file fileHash restSched { st with aborted := true }
    else
      scanChunksAux ctx plan file fileHash restSched
        (chunkStep ctx plan file fileHash st (readLen file st.fileOffset n))

/-- engine_bytes.rs `scan_file_bytes_chunked_prefilter`. -/
def scanFileBytesChunkedPrefilter (ctx : ScanCtx) (plan : PrefilterPlan)
    (file fileHash : Bytes) (schedule : List Nat) : List Finding :=
  if (scanChunksAux ctx plan file fileHash schedule
      { aborted := false, seen := [], found := [], carry := [],
        fileOffset := 0 }).aborted then []
  else
    (scanChunksAux ctx plan file fileHash schedule
      { aborted := false, seen := [], found := [], carry := [],
        fileOffset := 0 }).found

/-- The read schedule of a `BufReader` over a regular file: full
`CHUNK_SIZE` reads until the file is exhausted. -/
def autoSchedule (len : Nat) : List Nat :=
  List.replicate (len / CHUNK_SIZE + 1) CHUNK_SIZE

/-! ## The naive whole-buffer engine (lib.rs `scan_file_bytes`)

lib.rs is the crate root and declares no submodules, so the library that the
CLI links is this older generation: `DetectorSetBytes` holds every rule's
compiled `regex::bytes::Regex` (failed compiles are dropped) and
`scan_file_bytes` runs each of them over the whole buffer with one shared
per-file dedup set.  No prefilter and no binary sniffer. -/
def scanFileBytesNaive (matchers : List (Option (Bytes → List (Nat × Nat))))
    (file fileHash : Bytes) : List Finding :=
  (matchers.foldl
      (fun st m? =>
        match m? with
        | some m => emitSpans fileHash 0 0 file (m file) st
        | none => st)
      ([], [])).2

/-! ## Concrete precise-regex models

Each function below implements the match iteration of one concrete regex of
the rule catalog (leftmost match, greedy quantifiers, iteration resuming at
each match end), to instantiate the matcher oracles in scenario theorems. -/

/-- Matches of the literal regex `lit` (leftmost, non-overlapping; the whole
match is the extracted value). -/
def literalMatcherAux (lit : Bytes) : Nat → Bytes → Nat → List (Nat × Nat)
  | 0, _, _ => []
  | fuel + 1, rest, pos =>
    match rest with
    | [] => []
    | _ :: tail =>
      if lit.isPrefixOf rest && !lit.isEmpty then
        (pos, pos + lit.length) ::
          literalMatcherAux lit fuel (rest.drop lit.length) (pos + lit.length)
      else literalMatcherAux lit fuel tail (pos + 1)

/-- `captures_iter` of the literal regex `lit`. -/
def literalMatcher (lit : Bytes) (b : Bytes) : List (Nat × Nat) :=
  literalMatcherAux lit b.length b 0

/-- `captures_iter` of `sk-[A-Za-z0-9]{20,}` (no capture group: the whole
match is extracted; the quantifier is greedy). -/
def skMatcherAux : Nat → Bytes → Nat → List (Nat × Nat)
  | 0, _, _ => []
  | fuel + 1, rest, pos =>
    match rest with
    | [] => []
    | _ :: tail =>
      if (asciiBytes "sk-").isPrefixOf rest then
        let run := ((rest.drop 3).takeWhile isAlnumB).length
        if 20 ≤ run then
          (pos, pos + 3 + run) ::
            skMatcherAux fuel (rest.drop (3 + run)) (pos + 3 + run)
        else skMatcherAux fuel tail (pos + 1)
      else skMatcherAux fuel tail (pos + 1)

def skMatcher (b : Bytes) : List (Nat × Nat) := skMatcherAux b.length b 0

/-- ASCII digit. -/
def isDigitB (b : Nat) : Bool := 48 ≤ b && b ≤ 57

/-- `captures_iter` of `mytok-[0-9]{3}` (whole match extracted). -/
def mytokMatcherAux : Nat → Bytes → Nat → List (Nat × Nat)
  | 0, _, _ => []
  | fuel + 1, rest, pos =>
    match rest with
    | [] => []
    | _ :: tail =>
      if (asciiBytes "mytok-").isPrefixOf rest &&
          ((rest.drop 6).take 3).all isDigitB && decide (9 ≤ rest.length) then
        (pos, pos + 9) :: mytokMatcherAux fuel (rest.drop 9) (pos + 9)
      else mytokMatcherAux fuel tail (pos + 1)

def mytokMatcher (b : Bytes) : List (Nat × Nat) := mytokMatcherAux b.length b 0

/-- `captures_iter` of `x(mytok-[0-9]{3})`: capture group 1 is extracted, so
the emitted span excludes the leading `x`. -/
def xMytokMatcherAux : Nat → Bytes → Nat → List (Nat × Nat)
  | 0, _, _ => []
  | fuel + 1, rest, pos =>
    match rest with
    | [] => []
    | _ :: tail =>
      if (asciiBytes "xmytok-").isPrefixOf rest &&
          ((rest.drop 7).take 3).all isDigitB && decide (10 ≤ rest.length) then
        (pos + 1, pos + 10) :: xMytokMatcherAux fuel (rest.drop 10) (pos + 10)
      else xMytokMatcherAux fuel tail (pos + 1)

def xMytokMatcher (b : Bytes) : List (Nat × Nat) := xMytokMatcherAux b.length b 0

/-- `captures_iter` of `[A-Za-z0-9]{200}mytoken` (whole match extracted). -/
def alnum200MatcherAux : Nat → Bytes → Nat → List (Nat × Nat)
  | 0, _, _ => []
  | fuel + 1, rest, pos =>
    match rest with
    | [] => []
    | _ :: tail =>
      if (rest.take 200).all isAlnumB && decide (200 ≤ rest.length) &&
          (asciiBytes "mytoken").isPrefixOf (rest.drop 200) then
        (pos, pos + 207) :: alnum200MatcherAux fuel (rest.drop 207) (pos + 207)
      else alnum200MatcherAux fuel tail (pos + 1)

def alnum200Matcher (b : Bytes) : List (Nat × Nat) :=
  alnum200MatcherAux b.length b 0

/-- `captures_iter` of `mytoken[0-9]{2,6}` (greedy bounded quantifier). -/
def mytokenDigitsMatcherAux : Nat → Bytes → Nat → List (Nat × Nat)
  | 0, _, _ => []
  | fuel + 1, rest, pos =>
    match rest with
    | [] => []
    | _ :: tail =>
      if (asciiBytes "mytoken").isPrefixOf rest then
        let run := min (((rest.drop 7).takeWhile isDigitB).length) 6
        if 2 ≤ run then
          (pos, pos + 7 + run) ::
            mytokenDigitsMatcherAux fuel (rest.drop (7 + run)) (pos + 7 + run)
        else mytokenDigitsMatcherAux fuel tail (pos + 1)
      else mytokenDigitsMatcherAux fuel tail (pos + 1)

def mytokenDigitsMatcher (b : Bytes) : List (Nat × Nat) :=
  mytokenDigitsMatcherAux b.length b 0

/-! ## The serial scan pipeline (scan.rs `scan_and_write`, bytes engine)

The walker collects the directory's regular files and sorts them by file
name; each file is scanned by the small-file or chunked path according to
the 1 MiB threshold; per file the findings are stably sorted and streamed
as JSON items.  Files are modelled as (name, content) pairs. -/

/-- File-name sort of the walker (`files.sort_by(|a, b| file_name cmp)`). -/
def nameLE (a b : Bytes × Bytes) : Bool := !(bytesLt b.1 a.1)

def sortByName (files : List (Bytes × Bytes)) : List (Bytes × Bytes) :=
  sortBy nameLE files

/-- The findings of one file under the bytes engine with size dispatch. -/
def scanOneFileBytes (ctx : ScanCtx) (plan : PrefilterPlan)
    (fc : Bytes × Bytes) : List Finding :=
  if fc.2.length ≤ SMALL_FILE_MAX then
    scanFileBytesPrefilter ctx plan fc.2 fc.1
  else scanFileBytesChunkedPrefilter ctx plan fc.2 fc.1 (autoSchedule fc.2.length)

/-- The `(file_hash, value)` items of a serial bytes-engine scan, in output
order. -/
def serialPipelineItems (ctx : ScanCtx) (plan : PrefilterPlan)
    (files : List (Bytes × Bytes)) : List (Bytes × Bytes) :=
  ((sortByName files).map
      (fun fc =>
        (sortFindingsStable (scanOneFileBytes ctx plan fc)).map
          (fun f => (f.fileHash, f.value)))).flatten

/-- The JSON document of a serial bytes-engine scan. -/
def serialPipelineBytesJson (ctx : ScanCtx) (plan : PrefilterPlan)
    (files : List (Bytes × Bytes)) : Bytes :=
  writeItems (serialPipelineItems ctx plan files)

/-- The JSON document of a serial scan under the naive lib.rs bytes engine
(the serial branch of lib.rs `scan_and_write` always reads whole files). -/
def serialPipelineNaiveJson (matchers : List (Option (Bytes → List (Nat × Nat))))
    (files : List (Bytes × Bytes)) : Bytes :=
  writeItems
    (((sortByName files).map
        (fun fc =>
          (sortFindingsStable (scanFileBytesNaive matchers fc.2 fc.1)).map
            (fun f => (f.fileHash, f.value)))).flatten)

/-! ## The ordered writer of the parallel dispatcher
(scan.rs `scan_and_write_parallel_bytes`)

Workers send `(idx, findings)` messages in an order determined by the
scheduler; the single writer keeps a gap buffer (`BTreeMap`) and emits a
file's findings only when its index is the next expected one, flushing runs
of consecutive ready entries, with a residual flush after the pool drains.
The buffer is modelled as an association list with `BTreeMap` get/remove
semantics (keys are kept unique). -/

def alLookup (k : Nat) : List (Nat × List Finding) → Option (List Finding)
  | [] => none
  | p :: t => if p.1 = k then some p.2 else alLookup k t

def alErase (k : Nat) : List (Nat × List Finding) → List (Nat × List Finding)
  | [] => []
  | p :: t => if p.1 = k then t else p :: alErase k t

structure WriterState where
  next : Nat
  buf : List (Nat × List Finding)
  out : List Finding

/-- The flush loop of the writer: while the next expected index is buffered,
remove it and append its (stably sorted) findings to the output.  The fuel
bounds the number of flushes; the callers pass the buffer length, which
suffices because each flush removes one entry. -/
def flushReady : Nat → WriterState → WriterState
  | 0, st => st
  | fuel + 1, st =>
    match alLookup st.next st.buf with
    | some fs =>
      flushReady fuel
        { next := st.next + 1,
          buf := alErase st.next st.buf,
          out := st.out ++ sortFindingsStable fs }
    | none => st

/-- Receiving one worker message: insert into the gap buffer, then flush. -/
def writerStep (st : WriterState) (msg : Nat × List Finding) : WriterState :=
  let buf1 := (msg.1, msg.2) :: alErase msg.1 st.buf
  flushReady buf1.length { next := st.next, buf := buf1, out := st.out }

/-- The writer's total output over a complete arrival sequence, including
the residual flush after the channel closes. -/
def writerRun (arrivals : List (Nat × List Finding)) : List Finding :=
  let st := arrivals.foldl writerStep { next := 0, buf := [], out := [] }
  (flushReady st.buf.length st).out

/-! Association-list lemmas. -/

theorem alLookup_mem {k : Nat} {fs : List Finding} :
    ∀ {l}, alLookup k l = some fs → (k, fs) ∈ l := by
  intro l
  induction l with
  | nil => intro h; cases h
  | cons p t ih =>
    obtain ⟨a, b⟩ := p
    intro h
    unfold alLookup at h
    split at h
    · next heq =>
      injection h with h2
      simp only at heq h2
      subst heq; subst h2
      exact List.mem_cons_self _ _
    · exact List.mem_cons_of_mem _ (ih h)

theorem alLookup_none_iff {k : Nat} :
    ∀ {l}, alLookup k l = none ↔ ∀ fs, (k, fs) ∉ l := by
  intro l
  induction l with
  | nil => simp [alLookup]
  | cons p t ih =>
    unfold alLookup
    constructor
    · intro h fs hmem
      split at h
      · cases h
      · rcases List.mem_cons.mp hmem with h1 | h1
        · cases p; simp_all
        · exact (ih.mp h) fs h1
    · intro h
      split
      · exact absurd (by cases p; simp_all : (k, p.2) ∈ p :: t) (h p.2)
      · exact ih.mpr (fun fs hmem => h fs (List.mem_cons_of_mem _ hmem))

theorem alErase_subset {k : Nat} {p : Nat × List Finding} :
    ∀ {l}, p ∈ alErase k l → p ∈ l := by
  intro l
  induction l with
  | nil => intro h; cases h
  | cons q t ih =>
    intro h
    unfold alErase at h
    split at h
    · exact List.mem_cons_of_mem _ h
    · rcases List.mem_cons.mp h with h1 | h1
      · simp [h1]
      · exact List.mem_cons_of_mem _ (ih h1)

theorem alErase_of_ne {k : Nat} {p : Nat × List Finding} (hne : p.1 ≠ k) :
    ∀ {l}, p ∈ l → p ∈ alErase k l := by
  intro l
  induction l with
  | nil => intro h; cases h
  | cons q t ih =>
    intro h
    unfold alErase
    rcases List.mem_cons.mp h with h1 | h1
    · subst h1
      split
      · omega
      · exact List.mem_cons_self _ _
    · split
      · next hq =>
        rcases List.mem_cons.mp h with h2 | h2
        · subst h2; omega
        · exact h2
      · exact List.mem_cons_of_mem _ (ih h1)

theorem alErase_keys_nodup {k : Nat} :
    ∀ {l : List (Nat × List Finding)}, (l.map Prod.fst).Nodup →
      ((alErase k l).map Prod.fst).Nodup := by
  intro l
  induction l with
  | nil => intro _; simp [alErase]
  | cons q t ih =>
    intro h
    unfold alErase
    simp only [List.map_cons, List.nodup_cons] at h
    split
    · exact h.2
    · simp only [List.map_cons, List.nodup_cons]
      refine ⟨fun hmem => ?_, ih h.2⟩
      have : q.1 ∈ t.map Prod.fst := by
        rcases List.mem_map.mp hmem with ⟨p, hp, hp1⟩
        exact List.mem_map.mpr ⟨p, alErase_subset hp, hp1⟩
      exact h.1 this

theorem alErase_not_mem_key {k : Nat} {fs : List Finding} :
    ∀ {l : List (Nat × List Finding)}, (l.map Prod.fst).Nodup →
      (k, fs) ∉ alErase k l := by
  intro l
  induction l with
  | nil => intro _ h; cases h
  | cons q t ih =>
    intro hnd h
    simp only [List.map_cons, List.nodup_cons] at hnd
    unfold alErase at h
    split at h
    · next hq =>
      exact hnd.1 (List.mem_map.mpr ⟨(k, fs), h, by simp [hq]⟩)
    · rcases List.mem_cons.mp h with h1 | h1
      · next hq => exact hq (by rw [← h1])
      · exact ih hnd.2 h1

theorem alErase_id_of_not_mem {k : Nat} :
    ∀ {l : List (Nat × List Finding)}, (∀ fs, (k, fs) ∉ l) → alErase k l = l := by
  intro l
  induction l with
  | nil => intro _; rfl
  | cons q t ih =>
    intro h
    unfold alErase
    split
    · next hq =>
      exact absurd (by cases q; simp_all : (k, q.2) ∈ q :: t) (h q.2)
    · rw [ih (fun fs hmem => h fs (List.mem_cons_of_mem _ hmem))]

theorem alErase_length {k : Nat} {fs : List Finding} :
    ∀ {l : List (Nat × List Finding)}, (k, fs) ∈ l →
      (alErase k l).length + 1 = l.length := by
  intro l
  induction l with
  | nil => intro h; cases h
  | cons q t ih =>
    intro h
    unfold alErase
    split
    · simp
    · next hq =>
      rcases List.mem_cons.mp h with h1 | h1
      · subst h1; omega
      · simp only [List.length_cons, ih h1]

/-! The writer invariant: relative to the per-index result function `F` and
the set `P` of indices already received, the writer has emitted exactly the
results of the consecutive prefix `[0, next)`, and buffers exactly the
received indices at or beyond `next`. -/

def WInv (F : Nat → List Finding) (P : Nat → Prop) (st : WriterState) : Prop :=
  (∀ i, i < st.next → P i) ∧
  (∀ k, (∃ fs, (k, fs) ∈ st.buf) ↔ (P k ∧ st.next ≤ k)) ∧
  (st.buf.map Prod.fst).Nodup ∧
  (∀ p ∈ st.buf, p.2 = F p.1) ∧
  st.out = ((List.range st.next).map (fun i => sortFindingsStable (F i))).flatten

theorem WInv_congr {F : Nat → List Finding} {P Q : Nat → Prop} {st : WriterState}
    (h : ∀ k, P k ↔ Q k) (hi : WInv F P st) : WInv F Q st := by
  obtain ⟨h1, h2, h3, h4, h5⟩ := hi
  exact ⟨fun i hi => (h i).mp (h1 i hi),
         fun k => (h2 k).trans (and_congr_left' (h k)), h3, h4, h5⟩

theorem flushReady_inv {F : Nat → List Finding} {P : Nat → Prop} :
    ∀ (fuel : Nat) (st : WriterState), WInv F P st → st.buf.length ≤ fuel →
      WInv F P (flushReady fuel st) ∧
        alLookup (flushReady fuel st).next (flushReady fuel st).buf = none := by
  intro fuel
  induction fuel with
  | zero =>
    intro st hinv hlen
    have : st.buf = [] := List.eq_nil_of_length_eq_zero (Nat.le_zero.mp hlen)
    refine ⟨hinv, ?_⟩
    show alLookup st.next st.buf = none
    rw [this]; rfl
  | succ fuel ih =>
    intro st hinv hlen
    obtain ⟨h1, h2, h3, h4, h5⟩ := hinv
    show (fun st' => WInv F P st' ∧ alLookup st'.next st'.buf = none)
      (flushReady (fuel + 1) st)
    unfold flushReady
    cases hlk : alLookup st.next st.buf with
    | none => exact ⟨⟨h1, h2, h3, h4, h5⟩, hlk⟩
    | some fs =>
      have hmem : (st.next, fs) ∈ st.buf := alLookup_mem hlk
      have hPnext : P st.next := ((h2 st.next).mp ⟨fs, hmem⟩).1
      have hfs : fs = F st.next := h4 _ hmem
      have hinv' : WInv F P
          { next := st.next + 1, buf := alErase st.next st.buf,
            out := st.out ++ sortFindingsStable fs } := by
        refine ⟨?_, ?_, ?_, ?_, ?_⟩ <;> dsimp only
        · intro i hi
          rcases Nat.lt_succ_iff_lt_or_eq.mp hi with h | h
          · exact h1 i h
          · subst h; exact hPnext
        · intro k
          constructor
          · rintro ⟨fs', hmem'⟩
            have hk := (h2 k).mp ⟨fs', alErase_subset hmem'⟩
            have hne : k ≠ st.next := by
              intro heq
              subst heq
              exact alErase_not_mem_key h3 hmem'
            exact ⟨hk.1, by omega⟩
          · rintro ⟨hPk, hk⟩
            obtain ⟨fs', hmem'⟩ := (h2 k).mpr ⟨hPk, by omega⟩
            exact ⟨fs', alErase_of_ne (by dsimp only; omega) hmem'⟩
        · exact alErase_keys_nodup h3
        · exact fun p hp => h4 p (alErase_subset hp)
        · rw [List.range_succ, List.map_append, List.flatten_append, ← h5, hfs]
          simp
      have hlen' : (alErase st.next st.buf).length ≤ fuel := by
        have := alErase_length hmem
        omega
      exact ih _ hinv' hlen'

theorem writerStep_inv {F : Nat → List Finding} {P : Nat → Prop}
    {st : WriterState} {idx : Nat}
    (hinv : WInv F P st) (hidx : ¬ P idx) :
    WInv F (fun k => P k ∨ k = idx) (writerStep st (idx, F idx)) := by
  obtain ⟨h1, h2, h3, h4, h5⟩ := hinv
  have hnotbuf : ∀ fs, (idx, fs) ∉ st.buf := by
    intro fs hmem
    exact hidx ((h2 idx).mp ⟨fs, hmem⟩).1
  have herase : alErase idx st.buf = st.buf := alErase_id_of_not_mem hnotbuf
  have hnext_le : st.next ≤ idx := by
    by_contra h
    exact hidx (h1 idx (by omega))
  unfold writerStep
  simp only [herase]
  have hinv1 : WInv F (fun k => P k ∨ k = idx)
      { next := st.next, buf := (idx, F idx) :: st.buf, out := st.out } := by
    refine ⟨?_, ?_, ?_, ?_, ?_⟩ <;> dsimp only
    · exact fun i hi => Or.inl (h1 i hi)
    · intro k
      constructor
      · rintro ⟨fs, hmem⟩
        rcases List.mem_cons.mp hmem with h | h
        · have hk : k = idx := by cases h; rfl
          exact ⟨Or.inr hk, by omega⟩
        · have hk := (h2 k).mp ⟨fs, h⟩
          exact ⟨Or.inl hk.1, hk.2⟩
      · rintro ⟨hPk | hPk, hk⟩
        · obtain ⟨fs, hmem⟩ := (h2 k).mpr ⟨hPk, hk⟩
          exact ⟨fs, List.mem_cons_of_mem _ hmem⟩
        · subst hPk
          exact ⟨F k, List.mem_cons_self _ _⟩
    · simp only [List.map_cons, List.nodup_cons]
      refine ⟨fun hmem => ?_, h3⟩
      rcases List.mem_map.mp hmem with ⟨p, hp, hp1⟩
      exact hnotbuf p.2 (by
        have hpp : p = (idx, p.2) := by cases p; simp_all
        rw [← hpp]; exact hp)
    · intro p hp
      rcases List.mem_cons.mp hp with h | h
      · cases h; rfl
      · exact h4 p h
    · exact h5
  exact (flushReady_inv _ _ hinv1 le_rfl).1

theorem writerFold_inv {F : Nat → List Finding} :
    ∀ (arrivals : List (Nat × List Finding)) (P : Nat → Prop) (st : WriterState),
      WInv F P st → (∀ p ∈ arrivals, p.2 = F p.1) →
      (arrivals.map Prod.fst).Nodup →
      (∀ k ∈ arrivals.map Prod.fst, ¬ P k) →
      WInv F (fun k => P k ∨ k ∈ arrivals.map Prod.fst)
        (arrivals.foldl writerStep st) := by
  intro arrivals
  induction arrivals with
  | nil =>
    intro P st hinv _ _ _
    exact WInv_congr (by simp) hinv
  | cons p t ih =>
    obtain ⟨idx, fs⟩ := p
    intro P st hinv hvals hnd hnot
    have hfs : fs = F idx := hvals (idx, fs) (List.mem_cons_self _ _)
    subst hfs
    have hidx : ¬ P idx := hnot idx (by simp)
    have hstep := writerStep_inv hinv hidx
    simp only [List.map_cons, List.nodup_cons] at hnd
    have hrec := ih (fun k => P k ∨ k = idx) (writerStep st (idx, F idx)) hstep
      (fun q hq => hvals q (List.mem_cons_of_mem _ hq)) hnd.2
      (by
        rintro k hk (hPk | hPk)
        · exact hnot k (List.mem_cons_of_mem _ hk) hPk
        · subst hPk; exact hnd.1 hk)
    refine WInv_congr (fun k => ?_) hrec
    simp only [List.map_cons, List.mem_cons]
    tauto

/-- Order invariance of the ordered writer: however the worker messages are
interleaved (any permutation of the indices `0..n` with the per-index
findings), the writer's total output is the concatenation, in file-index
order, of each file's stably sorted findings. -/
theorem writerRun_eq (F : Nat → List Finding) (n : Nat)
    (arrivals : List (Nat × List Finding))
    (hperm : (arrivals.map Prod.fst).Perm (List.range n))
    (hvals : ∀ p ∈ arrivals, p.2 = F p.1) :
    writerRun arrivals =
      ((List.range n).map (fun i => sortFindingsStable (F i))).flatten := by
  have hnd : (arrivals.map Prod.fst).Nodup :=
    hperm.nodup_iff.mpr (List.nodup_range n)
  have hinit : WInv F (fun _ => False)
      { next := 0, buf := [], out := [] } := by
    refine ⟨?_, ?_, ?_, ?_, ?_⟩ <;> simp [WInv]
  have hfold := writerFold_inv arrivals (fun _ => False)
    { next := 0, buf := [], out := [] } hinit hvals hnd (by simp)
  have hfold' : WInv F (fun k => k < n) (arrivals.foldl writerStep
      { next := 0, buf := [], out := [] }) := by
    refine WInv_congr (fun k => ?_) hfold
    rw [false_or, hperm.mem_iff, List.mem_range]
  set stf := arrivals.foldl writerStep { next := 0, buf := [], out := [] }
  obtain ⟨hfin, hlk⟩ := flushReady_inv stf.buf.length stf hfold' le_rfl
  set stF := flushReady stf.buf.length stf
  obtain ⟨g1, g2, _, _, g5⟩ := hfin
  have hnn : ¬ stF.next < n := by
    intro h
    obtain ⟨fs, hmem⟩ := (g2 stF.next).mpr ⟨h, le_rfl⟩
    exact (alLookup_none_iff.mp hlk) fs hmem
  have hle : stF.next ≤ n := by
    by_contra h
    exact absurd (g1 n (by omega)) (by omega)
  have heq : stF.next = n := by omega
  show stF.out = _
  rw [g5, heq]

/-! ## CLI thread-count parsing (keyhunter-cli main.rs `parse_threads`) -/

/-- Lowercase an ASCII byte. -/
def toLowerB (b : Nat) : Nat := if 65 ≤ b && b ≤ 90 then b + 32 else b

/-- `str::eq_ignore_ascii_case`. -/
def eqIgnoreAsciiCase (a b : Bytes) : Bool :=
  a.length == b.length && (a.zip b).all (fun p => toLowerB p.1 == toLowerB p.2)

/-- `<usize as FromStr>::from_str`: an optional leading `+`, then at least
one ASCII digit and nothing else; errors on overflow past the 64-bit usize
range. -/
def parseUsize? (s : Bytes) : Option Nat :=
  let body := match s with
    | 43 :: rest => rest
    | _ => s
  if body.isEmpty then none
  else if body.all isDigitB then
    let v := body.foldl (fun acc b => acc * 10 + (b - 48)) 0
    if v < 2 ^ 64 then some v else none
  else none

/-- main.rs `parse_threads`: `"auto"` (case-insensitive) and anything that
does not parse as an integer ≥ 1 map to `None`. -/
def parseThreads (s : Bytes) : Option Nat :=
  if eqIgnoreAsciiCase s (asciiBytes "auto") then none
  else
    match parseUsize? s with
    | some n => if 1 ≤ n then some n else none
    | none => none

/-- scan.rs `opts.threads.unwrap_or_else(|| num_cpus::get())`. -/
def effectiveThreads (t : Option Nat) (ncpu : Nat) : Nat := t.getD ncpu

/-! # Claims -/

/-! ## C1 — scenario S1 under the default bytes engine

lib.rs is the crate root and declares no submodules, so the bytes engine the
CLI's default configuration actually runs is lib.rs `scan_file_bytes`: every
rule's full regex over the whole buffer.  `skMatcher` instantiates the
matcher oracle for the single rule `sk-[A-Za-z0-9]{20,}` of the scenario. -/

/-- C1: with the single rule `sk-[A-Za-z0-9]{20,}` and one file `aaa`
containing `prefix sk-ABCDEFGHIJKLMNOPQRSTUVWX suffix`, the default bytes
engine produces exactly the JSON document
`[{"file_hash":"aaa","value":"sk-ABCDEFGHIJKLMNOPQRSTUVWX"}]`. -/
theorem claim1_scenario_s1 :
    serialPipelineNaiveJson [some skMatcher]
      [(asciiBytes "aaa", asciiBytes "prefix sk-ABCDEFGHIJKLMNOPQRSTUVWX suffix")] =
    asciiBytes
      "[\x7b\"file_hash\":\"aaa\",\"value\":\"sk-ABCDEFGHIJKLMNOPQRSTUVWX\"\x7d]" := by
  decide

/-- Side fact (no claim): under the *prefilter* byte engine of
engine_bytes.rs/prefilter.rs, scenario S1 produces the empty array, because
the only anchor candidate `sk-` of the pattern (length 3, no entry in the
short whitelist) is dropped by the filter pass of §4.2, leaving the rule
dormant. -/
theorem scenario_s1_prefilter_dormant :
    extractAnchorsFromPattern (asciiBytes "sk-[A-Za-z0-9]\x7b20,\x7d") = [] ∧
    serialPipelineBytesJson
      { matchers := fun i => if i = 0 then some skMatcher else none,
        ruleOrder := id }
      (buildPrefilterPlan [asciiBytes "sk-[A-Za-z0-9]\x7b20,\x7d"])
      [(asciiBytes "aaa", asciiBytes "prefix sk-ABCDEFGHIJKLMNOPQRSTUVWX suffix")] =
    asciiBytes "[]" := by
  constructor <;> decide

/-! ## C2 — order invariance / determinism

The gap-buffer writer makes the output independent of worker completion
order and thread count (the amended theorem below).  But the per-window
rule set is a `HashSet<usize>` whose iteration order is nondeterministic
*per process*, and when two rules extract the same value at different
offsets the first-seen offset — and hence the sort order and the JSON byte
stream — depends on it; the counterexample exhibits two iteration orders of
the same two-element rule set with different JSON output. -/

/-- Rules `x(mytok-[0-9]{3})` and `mytok-[0-9]{3}` share the anchor
`mytok-`. -/
def c2Plan : PrefilterPlan :=
  buildPrefilterPlan
    [asciiBytes "x(mytok-[0-9]\x7b3\x7d)", asciiBytes "mytok-[0-9]\x7b3\x7d"]

def c2Matchers : Nat → Option (Bytes → List (Nat × Nat)) :=
  fun i => if i = 0 then some xMytokMatcher
           else if i = 1 then some mytokMatcher else none

def c2File : Bytes × Bytes :=
  (asciiBytes "f", asciiBytes "mytok-111mytok-222xmytok-111")

/-- C2 counterexample: the two iteration orders of the per-window rule set
`{0, 1}` yield different JSON byte streams on the same input (rule 0 first
records `mytok-111` at offset 19, rule 1 first records it at offset 0, and
the per-file sort then orders the two values differently), so the output is
not byte-identical regardless of the rule-set iteration order. -/
theorem claim2_counterexample :
    serialPipelineBytesJson { matchers := c2Matchers, ruleOrder := id }
        c2Plan [c2File] ≠
    serialPipelineBytesJson { matchers := c2Matchers, ruleOrder := List.reverse }
        c2Plan [c2File] := by
  decide

/-- C2 (amended): for a fixed per-window rule iteration order the scan is
deterministic per file, and the ordered writer makes the emitted sequence
independent of worker completion order (hence of the thread count): for any
arrival permutation of the per-file results `F 0, …, F (n-1)`, the writer
emits exactly the concatenation, in pre-scan file order, of each file's
findings sorted by (start_offset asc, value length desc, value lex asc). -/
theorem claim2_amended_writer_order_invariance (F : Nat → List Finding)
    (n : Nat) (arrivals : List (Nat × List Finding))
    (hperm : (arrivals.map Prod.fst).Perm (List.range n))
    (hvals : ∀ p ∈ arrivals, p.2 = F p.1) :
    writerRun arrivals =
      ((List.range n).map (fun i => sortFindingsStable (F i))).flatten :=
  writerRun_eq F n arrivals hperm hvals

/-- Per-file results for the C2 witness. -/
def c2WitnessF : Nat → List Finding :=
  fun i =>
    if i = 0 then [{ fileHash := asciiBytes "a", value := asciiBytes "u", startOffset := 0 }]
    else [{ fileHash := asciiBytes "b", value := asciiBytes "v", startOffset := 1 }]

/-- Witness for the amended C2 theorem: a complete out-of-order arrival
sequence for two files. -/
theorem claim2_amended_witness :
    writerRun [(1, c2WitnessF 1), (0, c2WitnessF 0)] =
      ((List.range 2).map (fun i => sortFindingsStable (c2WitnessF i))).flatten :=
  claim2_amended_writer_order_invariance c2WitnessF 2
    [(1, c2WitnessF 1), (0, c2WitnessF 0)] (by decide) (by decide)

/-! ## C10 — the CLI thread parser never rejects -/

/-- C10: every string that is not `auto` (case-insensitively) and does not
parse as an integer ≥ 1 (`"0"`, non-numeric strings, overflowing numerals)
makes `parse_threads` return `None`, and the scanner resolves `None` to the
CPU count rather than reporting an error. -/
theorem claim10_parse_threads_never_rejects (s : Bytes) (ncpu : Nat)
    (hauto : eqIgnoreAsciiCase s (asciiBytes "auto") = false)
    (hparse : parseUsize? s = none ∨ parseUsize? s = some 0) :
    parseThreads s = none ∧ effectiveThreads (parseThreads s) ncpu = ncpu := by
  have h : parseThreads s = none := by
    unfold parseThreads
    rw [hauto]
    rcases hparse with h | h <;> simp [h]
  exact ⟨h, by rw [h]; rfl⟩

/-- Witness for C10 at the non-numeric input `abc`. -/
theorem claim10_witness :
    parseThreads (asciiBytes "abc") = none ∧
    effectiveThreads (parseThreads (asciiBytes "abc")) 8 = 8 :=
  claim10_parse_threads_never_rejects (asciiBytes "abc") 8 (by decide)
    (Or.inl (by decide))

/-! ## C8 — PrefilterPlan construction invariants -/

theorem mem_of_insertAnchor {out : List Bytes} {a x : Bytes}
    (h : x ∈ insertAnchor out a) : x ∈ out ∨ x = a := by
  unfold insertAnchor at h
  split at h
  · exact Or.inl h
  · rcases List.mem_append.mp h with h1 | h1
    · exact Or.inl h1
    · exact Or.inr (List.mem_singleton.mp h1)

/-- The filter pass only keeps candidates of length ≥ 3: whitelist entries
have length ≥ 3, and `is_stop` rejects anything shorter than 3. -/
theorem keepAnchor_len_ge3 {a : Bytes} (h : keepAnchor a = true) :
    3 ≤ a.length := by
  unfold keepAnchor at h
  split_ifs at h with h1 h2 h3 h4
  · -- whitelist member
    rcases List.any_eq_true.mp h1 with ⟨w, hw, hwa⟩
    have : w = a := by simpa using hwa
    subst this
    have : ∀ w ∈ shortAnchorWhitelist, 3 ≤ w.length := by decide
    exact this w hw
  · -- ¬ is_stop forces length ≥ 3
    unfold isStopAnchor at h2
    split_ifs at h2 with h5
    · exact absurd rfl h2
    · omega
  · unfold isStopAnchor at h2
    split_ifs at h2 with h5
    · exact absurd rfl h2
    · omega
  · unfold isStopAnchor at h2
    split_ifs at h2 with h5
    · exact absurd rfl h2
    · omega

/-- Every anchor produced by the extractor has length ≥ 3. -/
theorem extractAnchors_len_ge3 {pat : Bytes} :
    ∀ a ∈ extractAnchorsFromPattern pat, 3 ≤ a.length := by
  intro a ha
  unfold extractAnchorsFromPattern at ha
  have hmem := (sortBy_perm anchorLE _).mem_iff.mp ha
  have hk := List.of_mem_filter hmem
  exact keepAnchor_len_ge3 hk

/-- Invariant preserved by interning one rule's anchors: the table only
grows, stays duplicate-free with every entry of length ≥ 3, and all
recorded anchor ids are valid indices. -/
theorem internFold_inv (anchors : List Bytes)
    (hA : ∀ a ∈ anchors, 3 ≤ a.length) :
    ∀ (all : List Bytes) (ids : List Nat),
      all.Nodup → (∀ a ∈ all, 3 ≤ a.length) → (∀ i ∈ ids, i < all.length) →
      let r := anchors.foldl
        (fun (p : List Bytes × List Nat) a =>
          match p.1.findIdx? (· == a) with
          | some i => (p.1, p.2 ++ [i])
          | none => (p.1 ++ [a], p.2 ++ [p.1.length]))
        (all, ids)
      all.length ≤ r.1.length ∧ r.1.Nodup ∧ (∀ a ∈ r.1, 3 ≤ a.length) ∧
        (∀ i ∈ r.2, i < r.1.length) := by
  induction anchors with
  | nil =>
    intro all ids h1 h2 h3
    exact ⟨le_rfl, h1, h2, h3⟩
  | cons a anchors ih =>
    intro all ids h1 h2 h3
    have hA' : ∀ x ∈ anchors, 3 ≤ x.length :=
      fun x hx => hA x (List.mem_cons_of_mem _ hx)
    simp only [List.foldl_cons]
    cases hf : all.findIdx? (· == a) with
    | some i =>
      have hi : i < all.length :=
        (List.findIdx?_eq_some_iff_findIdx_eq.mp hf).1
      have := ih hA' all (ids ++ [i]) h1 h2
        (by
          intro j hj
          rcases List.mem_append.mp hj with h | h
          · exact h3 j h
          · rw [List.mem_singleton.mp h]; exact hi)
      simpa [hf] using this
    | none =>
      have hnot : a ∉ all := by
        intro hmem
        have := List.findIdx?_eq_none_iff.mp hf a hmem
        simp at this
      have hnd : (all ++ [a]).Nodup := by
        rw [List.nodup_append]
        exact ⟨h1, List.nodup_singleton a, by simpa using hnot⟩
      have hlen : ∀ x ∈ all ++ [a], 3 ≤ x.length := by
        intro x hx
        rcases List.mem_append.mp hx with h | h
        · exact h2 x h
        · rw [List.mem_singleton.mp h]
          exact hA a (List.mem_cons_self _ _)
      have hids : ∀ i ∈ ids ++ [all.length], i < (all ++ [a]).length := by
        intro j hj
        rcases List.mem_append.mp hj with h | h
        · have := h3 j h
          simp only [List.length_append, List.length_singleton]
          omega
        · rw [List.mem_singleton.mp h]
          simp
      have := ih hA' (all ++ [a]) (ids ++ [all.length]) hnd hlen hids
      refine ⟨?_, this.2.1, this.2.2.1, this.2.2.2⟩
      calc all.length ≤ (all ++ [a]).length := by simp
        _ ≤ _ := this.1

/-- Invariant of the whole first phase (`buildAnchorTables`). -/
theorem buildAnchorTables_inv (specs : List Bytes) :
    (buildAnchorTables specs).1.Nodup ∧
    (∀ a ∈ (buildAnchorTables specs).1, 3 ≤ a.length) ∧
    (buildAnchorTables specs).2.length = specs.length ∧
    (∀ ids ∈ (buildAnchorTables specs).2, ∀ i ∈ ids,
      i < (buildAnchorTables specs).1.length) := by
  unfold buildAnchorTables
  suffices h : ∀ (specs : List Bytes) (all : List Bytes) (ruleAids : List (List Nat)),
      all.Nodup → (∀ a ∈ all, 3 ≤ a.length) →
      (∀ ids ∈ ruleAids, ∀ i ∈ ids, i < all.length) →
      let r := specs.foldl
        (fun (st : List Bytes × List (List Nat)) pat =>
          let anchors := extractAnchorsFromPattern pat
          let p := anchors.foldl
            (fun (p : List Bytes × List Nat) a =>
              match p.1.findIdx? (· == a) with
              | some i => (p.1, p.2 ++ [i])
              | none => (p.1 ++ [a], p.2 ++ [p.1.length]))
            (st.1, [])
          (p.1, st.2 ++ [p.2]))
        (all, ruleAids)
      r.1.Nodup ∧ (∀ a ∈ r.1, 3 ≤ a.length) ∧
        r.2.length = ruleAids.length + specs.length ∧
        (∀ ids ∈ r.2, ∀ i ∈ ids, i < r.1.length) by
    have := h specs [] [] (List.nodup_nil) (by simp) (by simp)
    exact ⟨this.1, this.2.1, by simpa using this.2.2.1, this.2.2.2⟩
  intro specs
  induction specs with
  | nil =>
    intro all ruleAids h1 h2 h3
    exact ⟨h1, h2, by simp, h3⟩
  | cons pat specs ih =>
    intro all ruleAids h1 h2 h3
    simp only [List.foldl_cons]
    have hstep := internFold_inv (extractAnchorsFromPattern pat)
      (extractAnchors_len_ge3) all [] h1 h2 (by simp)
    set p := (extractAnchorsFromPattern pat).foldl
      (fun (p : List Bytes × List Nat) a =>
        match p.1.findIdx? (· == a) with
        | some i => (p.1, p.2 ++ [i])
        | none => (p.1 ++ [a], p.2 ++ [p.1.length]))
      (all, []) with hp
    have h3' : ∀ ids ∈ ruleAids ++ [p.2], ∀ i ∈ ids, i < p.1.length := by
      intro ids hids i hi
      rcases List.mem_append.mp hids with h | h
      · exact lt_of_lt_of_le (h3 ids h i hi) hstep.1
      · rw [List.mem_singleton.mp h] at hi
        exact hstep.2.2.2 i hi
    have := ih p.1 (ruleAids ++ [p.2]) hstep.2.1 hstep.2.2.1 h3'
    refine ⟨this.1, this.2.1, ?_, this.2.2.2⟩
    rw [this.2.2.1]
    simp only [List.length_append, List.length_singleton, List.length_cons,
      List.length_nil]
    omega

/-- Entries of `invertAnchorMap` are rule indices below `ruleAids.length`,
and the table has exactly `numAnchors` rows. -/
theorem invertAnchorMap_inv (numAnchors : Nat) (ruleAids : List (List Nat)) :
    (invertAnchorMap numAnchors ruleAids).length = numAnchors ∧
    (∀ l ∈ invertAnchorMap numAnchors ruleAids, ∀ r ∈ l, r < ruleAids.length) := by
  unfold invertAnchorMap
  suffices h : ∀ (ps : List (Nat × List Nat)) (acc : List (List Nat)),
      (∀ q ∈ ps, q.1 < ruleAids.length) →
      (∀ l ∈ acc, ∀ r ∈ l, r < ruleAids.length) →
      (ps.foldl
        (fun acc p => p.2.foldl
          (fun acc aid => acc.set aid (acc.getD aid [] ++ [p.1])) acc)
        acc).length = acc.length ∧
      (∀ l ∈ ps.foldl
          (fun acc p => p.2.foldl
            (fun acc aid => acc.set aid (acc.getD aid [] ++ [p.1])) acc)
          acc, ∀ r ∈ l, r < ruleAids.length) by
    have hfst : ∀ q ∈ enumFrom 0 ruleAids, q.1 < ruleAids.length := by
      have hgen : ∀ (l : List (List Nat)) (i : Nat) (q : Nat × List Nat),
          q ∈ enumFrom i l → q.1 < i + l.length := by
        intro l
        induction l with
        | nil => intro i q hq; cases hq
        | cons x xs ihl =>
          intro i q hq
          rcases List.mem_cons.mp hq with h | h
          · subst h; simp
          · have := ihl (i + 1) q h
            simp only [List.length_cons]
            omega
      intro q hq
      simpa using hgen ruleAids 0 q hq
    have := h (enumFrom 0 ruleAids) (List.replicate numAnchors []) hfst
      (by
        intro l hl r hr
        rw [List.eq_of_mem_replicate hl] at hr
        cases hr)
    exact ⟨by rw [this.1]; simp, this.2⟩
  intro ps
  induction ps with
  | nil =>
    intro acc _ hacc
    exact ⟨rfl, hacc⟩
  | cons q ps ih =>
    intro acc hps hacc
    simp only [List.foldl_cons]
    have hq1 : q.1 < ruleAids.length := hps q (List.mem_cons_self _ _)
    -- inner fold over the rule's anchor ids
    have hinner : ∀ (aids : List Nat) (acc : List (List Nat)),
        (∀ l ∈ acc, ∀ r ∈ l, r < ruleAids.length) →
        (aids.foldl (fun acc aid => acc.set aid (acc.getD aid [] ++ [q.1]))
            acc).length = acc.length ∧
        (∀ l ∈ aids.foldl (fun acc aid => acc.set aid (acc.getD aid [] ++ [q.1]))
            acc, ∀ r ∈ l, r < ruleAids.length) := by
      intro aids
      induction aids with
      | nil => intro acc hacc; exact ⟨rfl, hacc⟩
      | cons aid aids iha =>
        intro acc hacc
        simp only [List.foldl_cons]
        have hset : ∀ l ∈ acc.set aid (acc.getD aid [] ++ [q.1]),
            ∀ r ∈ l, r < ruleAids.length := by
          intro l hl r hr
          rcases List.mem_or_eq_of_mem_set hl with h | h
          · exact hacc l h r hr
          · subst h
            rcases List.mem_append.mp hr with h | h
            · rw [List.getD_eq_getElem?_getD] at h
              cases hga : acc[aid]? with
              | none => rw [hga] at h; cases h
              | some row =>
                rw [hga] at h
                exact hacc row (List.getElem?_mem hga) r h
            · rw [List.mem_singleton.mp h]
              exact hq1
        have := iha _ hset
        rw [this.1, List.length_set]
        exact ⟨rfl, this.2⟩
    have hstep := hinner q.2 acc hacc
    have := ih _ (fun r hr => hps r (List.mem_cons_of_mem _ hr)) hstep.2
    rw [this.1, hstep.1]
    exact ⟨rfl, this.2⟩

/-- C8: for every rule-spec list, the constructed plan satisfies: every rule
index stored in `anchor_to_rules` indexes `rule_patterns`; the
`anchor_to_rules` table has one row per anchor (so every anchor id the
automaton can report is a valid index); the anchor table has no duplicates;
and every anchor has length ≥ 3. -/
theorem claim8_plan_invariants (specs : List Bytes) :
    (∀ l ∈ (buildPrefilterPlan specs).anchorToRules, ∀ r ∈ l,
      r < (buildPrefilterPlan specs).rulePatterns.length) ∧
    (buildPrefilterPlan specs).anchorToRules.length =
      (buildPrefilterPlan specs).anchors.length ∧
    (buildPrefilterPlan specs).anchors.Nodup ∧
    (∀ a ∈ (buildPrefilterPlan specs).anchors, 3 ≤ a.length) := by
  have ht := buildAnchorTables_inv specs
  have hi := invertAnchorMap_inv (buildAnchorTables specs).1.length
    (buildAnchorTables specs).2
  unfold buildPrefilterPlan
  refine ⟨?_, hi.1, ht.1, ht.2.1⟩
  intro l hl r hr
  have := hi.2 l hl r hr
  rw [ht.2.2.1] at this
  exact this

/-! ## C9 — termination of the precise-match loop

The inner loop of `scan_buffer_with_prefilter` step 3: `re.captures` is
modelled by an oracle `find` giving, for each cursor position, the next
match (overall span and optional group-1 span) in `[cur, wlen]`, or `none`.
The loop is embedded with explicit fuel; termination is the theorem that
the result is independent of the fuel once it exceeds `wlen + 2 - cur`,
because the cursor strictly increases every iteration and the search is
done past `wlen`.  The matcher oracles `m window` used by
`scanBufferWithPrefilter` stand for `innerLoop find window.length`. -/

/-- One `re.captures` result: group-0 span and optional group-1 span. -/
structure Caps where
  m0s : Nat
  m0e : Nat
  g1 : Option (Nat × Nat)

/-- The extraction span: group 1 if present, else group 0. -/
def capSpan (c : Caps) : Nat × Nat :=
  match c.g1 with
  | some g => g
  | none => (c.m0s, c.m0e)

/-- The inner matching loop of `scan_buffer_with_prefilter`: skip matches
with empty extraction spans advancing to `m0.end + 1`; after an emission
advance to `max (cur+1) m0.end`. -/
def innerLoopAux (find : Nat → Option Caps) : Nat → Nat → List (Nat × Nat)
  | 0, _ => []
  | fuel + 1, cur =>
    match find cur with
    | none => []
    | some c =>
      if (capSpan c).2 ≤ (capSpan c).1 then innerLoopAux find fuel (c.m0e + 1)
      else
        capSpan c ::
          innerLoopAux find fuel (if cur < c.m0e then c.m0e else cur + 1)

/-- The loop run with sufficient fuel. -/
def innerLoop (find : Nat → Option Caps) (wlen : Nat) : List (Nat × Nat) :=
  innerLoopAux find (wlen + 2) 0

theorem innerLoopAux_fuel (find : Nat → Option Caps) (wlen : Nat)
    (hspan : ∀ i c, find i = some c → i ≤ c.m0s ∧ c.m0s ≤ c.m0e ∧ c.m0e ≤ wlen)
    (hdone : ∀ i, wlen < i → find i = none) :
    ∀ (fuel1 fuel2 cur : Nat), wlen + 2 ≤ fuel1 + cur → wlen + 2 ≤ fuel2 + cur →
      innerLoopAux find fuel1 cur = innerLoopAux find fuel2 cur := by
  intro fuel1
  induction fuel1 with
  | zero =>
    intro fuel2 cur h1 h2
    have hnone : find cur = none := hdone cur (by omega)
    cases fuel2 with
    | zero => rfl
    | succ fuel2 =>
      show innerLoopAux find 0 cur = innerLoopAux find (fuel2 + 1) cur
      unfold innerLoopAux
      rw [hnone]
  | succ fuel1 ih =>
    intro fuel2 cur h1 h2
    cases fuel2 with
    | zero =>
      have hnone : find cur = none := hdone cur (by omega)
      show innerLoopAux find (fuel1 + 1) cur = innerLoopAux find 0 cur
      unfold innerLoopAux
      rw [hnone]
    | succ fuel2 =>
      cases hf : find cur with
      | none =>
        show innerLoopAux find (fuel1 + 1) cur = innerLoopAux find (fuel2 + 1) cur
        unfold innerLoopAux
        simp only [hf]
      | some c =>
        obtain ⟨hc1, hc2, hc3⟩ := hspan cur c hf
        show innerLoopAux find (fuel1 + 1) cur = innerLoopAux find (fuel2 + 1) cur
        unfold innerLoopAux
        simp only [hf]
        split
        · exact ih fuel2 (c.m0e + 1) (by omega) (by omega)
        · rw [ih fuel2 (if cur < c.m0e then c.m0e else cur + 1)
            (by split <;> omega) (by split <;> omega)]

/-- C9: zero-length extraction spans are skipped without emission and the
cursor strictly increases every iteration (to `m0.end + 1` on a skip, to
`max (cur+1) m0.end` on an emission), so the per-window precise-match loop
terminates on every input: its result is already stable at fuel `wlen + 2`
and no further fuel changes it — no zero-width match can loop forever. -/
theorem claim9_inner_loop_terminates (find : Nat → Option Caps) (wlen : Nat)
    (hspan : ∀ i c, find i = some c → i ≤ c.m0s ∧ c.m0s ≤ c.m0e ∧ c.m0e ≤ wlen)
    (hdone : ∀ i, wlen < i → find i = none)
    (fuel : Nat) (hfuel : wlen + 2 ≤ fuel) :
    innerLoopAux find fuel 0 = innerLoop find wlen :=
  innerLoopAux_fuel find wlen hspan hdone fuel (wlen + 2) 0 (by omega) (by omega)

/-- A concrete matcher oracle for the C9 witness: one match `[0, 2)` at the
start of a window of length 2. -/
def c9Find : Nat → Option Caps :=
  fun i => if i = 0 then some { m0s := 0, m0e := 2, g1 := none } else none

/-- Witness for C9 at the concrete oracle `c9Find` and fuel 10. -/
theorem claim9_witness : innerLoopAux c9Find 10 0 = innerLoop c9Find 2 :=
  claim9_inner_loop_terminates c9Find 2
    (by
      intro i c h
      unfold c9Find at h
      split at h
      · next hi =>
        cases h
        subst hi
        exact ⟨by decide, by decide, by decide⟩
      · cases h)
    (by
      intro i hi
      unfold c9Find
      split
      · omega
      · rfl)
    10 (by omega)

/-! ## C7 — per-file dedup -/

/-- The dedup invariant maintained by every emit loop of the engines: the
findings' values are pairwise distinct, every emitted value is in the seen
set, and every finding carries the scanned file's hash. -/
def EmitInv (fileHash : Bytes) (st : List Bytes × List Finding) : Prop :=
  (st.2.map Finding.value).Nodup ∧ (∀ f ∈ st.2, f.value ∈ st.1) ∧
  (∀ f ∈ st.2, f.fileHash = fileHash)

theorem emitInv_insert {fileHash : Bytes} {st : List Bytes × List Finding}
    (h : EmitInv fileHash st) (f : Finding) (hf : f.fileHash = fileHash)
    (hnew : f.value ∉ st.1) :
    EmitInv fileHash (f.value :: st.1, st.2 ++ [f]) := by
  obtain ⟨h1, h2, h3⟩ := h
  refine ⟨?_, ?_, ?_⟩
  · rw [List.map_append]
    rw [List.nodup_append]
    refine ⟨h1, by simp, ?_⟩
    intro v hv
    simp only [List.map_cons, List.map_nil, List.mem_singleton]
    intro hveq
    subst hveq
    rcases List.mem_map.mp hv with ⟨g, hg, hgv⟩
    exact hnew (hgv ▸ h2 g hg)
  · intro g hg
    rcases List.mem_append.mp hg with h | h
    · exact List.mem_cons_of_mem _ (h2 g h)
    · rw [List.mem_singleton.mp h]
      exact List.mem_cons_self _ _
  · intro g hg
    rcases List.mem_append.mp hg with h | h
    · exact h3 g h
    · rw [List.mem_singleton.mp h]; exact hf

theorem emitSpans_inv {fileHash : Bytes} {baseOff ws : Nat} {window : Bytes}
    (spans : List (Nat × Nat)) :
    ∀ st, EmitInv fileHash st →
      EmitInv fileHash (emitSpans fileHash baseOff ws window spans st) := by
  induction spans with
  | nil => intro st h; exact h
  | cons sp spans ih =>
    intro st h
    show EmitInv fileHash (emitSpans fileHash baseOff ws window (sp :: spans) st)
    unfold emitSpans
    simp only [List.foldl_cons]
    split
    · exact ih st h
    · split
      · exact ih st h
      · next hne hnew =>
        exact ih _ (emitInv_insert h _ rfl (by simpa using hnew))

theorem foldl_emitInv {α : Type} {fileHash : Bytes}
    (step : (List Bytes × List Finding) → α → List Bytes × List Finding)
    (hstep : ∀ st a, EmitInv fileHash st → EmitInv fileHash (step st a)) :
    ∀ (l : List α) (st), EmitInv fileHash st →
      EmitInv fileHash (l.foldl step st) := by
  intro l
  induction l with
  | nil => intro st h; exact h
  | cons a l ih =>
    intro st h
    exact ih _ (hstep st a h)

/-- The per-buffer scan emits each distinct value at most once, and every
finding carries the scanned file's hash. -/
theorem scanBuffer_emitInv (ctx : ScanCtx) (plan : PrefilterPlan)
    (buf : Bytes) (base : Nat) (fileHash : Bytes) :
    ((scanBufferWithPrefilter ctx plan buf base fileHash).map
      Finding.value).Nodup ∧
    (∀ f ∈ scanBufferWithPrefilter ctx plan buf base fileHash,
      f.fileHash = fileHash) := by
  have hinit : EmitInv fileHash ([], []) := ⟨List.nodup_nil, by simp, by simp⟩
  have h := foldl_emitInv
    (fun st (w : Nat × Nat × List Nat) =>
      let rules := ctx.ruleOrder
        (dedupNats ((w.2.2.map (fun aid => plan.anchorToRules.getD aid [])).flatten))
      let window := (buf.drop w.1).take (w.2.1 - w.1)
      rules.foldl
        (fun st ri =>
          match ctx.matchers ri with
          | some m => emitSpans fileHash base w.1 window (m window) st
          | none => st)
        st)
    (by
      intro st w hst
      refine foldl_emitInv _ ?_ _ st hst
      intro st' ri hst'
      cases hm : ctx.matchers ri with
      | some m =>
        simp only [hm]
        exact emitSpans_inv _ st' hst'
      | none => simpa [hm] using hst')
    (buildWindows plan.anchors buf.length (acFindIter plan.anchors buf))
    ([], []) hinit
  exact ⟨h.1, h.2.2⟩

/-- The chunked merge step preserves the dedup invariant. -/
theorem mergeFold_inv {fileHash : Bytes} (part : List Finding)
    (hpart : ∀ f ∈ part, f.fileHash = fileHash) :
    ∀ st, EmitInv fileHash st →
      EmitInv fileHash
        (part.foldl
          (fun (p : List Bytes × List Finding) f =>
            if f.value ∈ p.1 then p else (f.value :: p.1, p.2 ++ [f]))
          st) := by
  induction part with
  | nil => intro st h; exact h
  | cons f part ih =>
    intro st h
    simp only [List.foldl_cons]
    have hf : f.fileHash = fileHash := hpart f (List.mem_cons_self _ _)
    have hpart' : ∀ g ∈ part, g.fileHash = fileHash :=
      fun g hg => hpart g (List.mem_cons_of_mem _ hg)
    split
    · exact ih hpart' st h
    · next hnew =>
      exact ih hpart' _ (emitInv_insert h f hf hnew)

/-- The chunked scan maintains the dedup invariant across chunks. -/
theorem scanChunks_emitInv (ctx : ScanCtx) (plan : PrefilterPlan)
    (file fileHash : Bytes) :
    ∀ (sched : List Nat) (st : ChunkState),
      EmitInv fileHash (st.seen, st.found) →
      EmitInv fileHash
        ((scanChunksAux ctx plan file fileHash sched st).seen,
         (scanChunksAux ctx plan file fileHash sched st).found) := by
  intro sched
  induction sched with
  | nil => intro st h; exact h
  | cons n rest ih =>
    intro st h
    show EmitInv fileHash _
    unfold scanChunksAux
    split
    · exact h
    · split
      · exact h
      · split
        · exact ih _ h
        · refine ih _ ?_
          show EmitInv fileHash _
          simp only [chunkStep]
          exact mergeFold_inv _
            (scanBuffer_emitInv ctx plan _ _ fileHash).2 _ h

/-- C7: no `(file_hash, value)` pair appears twice in a scan's output (for
directories of distinct file names), and within one file's processing —
whole-buffer or chunked — each distinct value is emitted at most once. -/
theorem claim7_per_file_dedup (ctx : ScanCtx) (plan : PrefilterPlan)
    (files : List (Bytes × Bytes))
    (hnames : (files.map Prod.fst).Nodup) :
    (serialPipelineItems ctx plan files).Nodup ∧
    (∀ file fileHash,
      ((scanFileBytesPrefilter ctx plan file fileHash).map
        Finding.value).Nodup) ∧
    (∀ file fileHash sched,
      ((scanFileBytesChunkedPrefilter ctx plan file fileHash sched).map
        Finding.value).Nodup) := by
  have hwhole : ∀ file fileHash,
      ((scanFileBytesPrefilter ctx plan file fileHash).map
        Finding.value).Nodup := by
    intro file fileHash
    unfold scanFileBytesPrefilter
    split
    · simp
    · exact (scanBuffer_emitInv ctx plan file 0 fileHash).1
  have hchunk : ∀ file fileHash sched,
      ((scanFileBytesChunkedPrefilter ctx plan file fileHash sched).map
        Finding.value).Nodup := by
    intro file fileHash sched
    unfold scanFileBytesChunkedPrefilter
    have := scanChunks_emitInv ctx plan file fileHash sched
      { aborted := false, seen := [], found := [], carry := [], fileOffset := 0 }
      (by refine ⟨?_, ?_, ?_⟩ <;> simp)
    split
    · simp
    · exact this.1
  refine ⟨?_, hwhole, hchunk⟩
  -- per-file item lists are nodup and carry the file's name as first
  -- component; names are pairwise distinct, so the concatenation is nodup
  have hone : ∀ fc : Bytes × Bytes,
      ((scanOneFileBytes ctx plan fc).map Finding.value).Nodup ∧
      (∀ f ∈ scanOneFileBytes ctx plan fc, f.fileHash = fc.1) := by
    intro fc
    unfold scanOneFileBytes
    split
    · constructor
      · exact hwhole fc.2 fc.1
      · intro f hf
        unfold scanFileBytesPrefilter at hf
        split at hf
        · cases hf
        · exact (scanBuffer_emitInv ctx plan fc.2 0 fc.1).2 f hf
    · constructor
      · exact hchunk fc.2 fc.1 _
      · intro f hf
        unfold scanFileBytesChunkedPrefilter at hf
        split at hf
        · cases hf
        · exact (scanChunks_emitInv ctx plan fc.2 fc.1 _ _
            (by refine ⟨?_, ?_, ?_⟩ <;> simp)).2.2 f hf
  have hsorted : ((sortByName files).map Prod.fst).Nodup := by
    have hperm := (sortBy_perm nameLE files).map Prod.fst
    exact hperm.nodup_iff.mpr hnames
  unfold serialPipelineItems
  generalize hfs : sortByName files = sfiles at hsorted ⊢
  clear hfs hnames
  induction sfiles with
  | nil => simp
  | cons fc rest ih =>
    simp only [List.map_cons, List.flatten_cons]
    simp only [List.map_cons, List.nodup_cons] at hsorted
    rw [List.nodup_append]
    refine ⟨?_, ih hsorted.2, ?_⟩
    · -- one file's items are nodup
      have hv := (hone fc).1
      have hperm := (sortBy_perm findingLE (scanOneFileBytes ctx plan fc)).map
        Finding.value
      have hv' : ((sortFindingsStable (scanOneFileBytes ctx plan fc)).map
          Finding.value).Nodup := hperm.nodup_iff.mpr hv
      have : (sortFindingsStable (scanOneFileBytes ctx plan fc)).map
          Finding.value =
          ((sortFindingsStable (scanOneFileBytes ctx plan fc)).map
            (fun f => (f.fileHash, f.value))).map Prod.snd := by
        simp [List.map_map, Function.comp]
      rw [this] at hv'
      exact hv'.of_map
    · -- disjointness: the first components differ
      intro p hp hp2
      rcases List.mem_map.mp hp with ⟨f, hf, hfp⟩
      have hfst : p.1 = fc.1 := by
        have := (hone fc).2 f ((sortBy_perm findingLE _).mem_iff.mp hf)
        rw [← hfp]
        exact this
      rcases List.mem_flatten.mp hp2 with ⟨l, hl, hpl⟩
      rcases List.mem_map.mp hl with ⟨fc', hfc', hfcl⟩
      rcases List.mem_map.mp (hfcl ▸ hpl) with ⟨g, hg, hgp⟩
      have hfst' : p.1 = fc'.1 := by
        have := (hone fc').2 g ((sortBy_perm findingLE _).mem_iff.mp hg)
        rw [← hgp]
        exact this
      have : fc.1 ∈ rest.map Prod.fst :=
        List.mem_map.mpr ⟨fc', hfc', by rw [← hfst', hfst]⟩
      exact hsorted.1 this

/-- Witness for C7 on a concrete two-file directory under the C2 rule
catalog. -/
theorem claim7_witness :
    (serialPipelineItems { matchers := c2Matchers, ruleOrder := id } c2Plan
      [(asciiBytes "a", asciiBytes "mytok-111"), (asciiBytes "b", [])]).Nodup ∧
    (∀ file fileHash,
      ((scanFileBytesPrefilter { matchers := c2Matchers, ruleOrder := id }
        c2Plan file fileHash).map Finding.value).Nodup) ∧
    (∀ file fileHash sched,
      ((scanFileBytesChunkedPrefilter { matchers := c2Matchers, ruleOrder := id }
        c2Plan file fileHash sched).map Finding.value).Nodup) :=
  claim7_per_file_dedup { matchers := c2Matchers, ruleOrder := id } c2Plan
    [(asciiBytes "a", asciiBytes "mytok-111"), (asciiBytes "b", [])]
    (by decide)

/-! ## C5 — offset soundness: groundwork -/

/-- Slices of slices: the composed window/chunk slice is a direct file
slice. -/
theorem slice_slice {l : Bytes} {a b c d : Nat} (h : c + d ≤ b) :
    (((l.drop a).take b).drop c).take d = (l.drop (a + c)).take d := by
  rw [List.drop_take, List.drop_drop, List.take_take]
  congr 1
  omega

/-- `bestAnchorAt` reports an anchor length that is positive and at most
the remaining buffer length. -/
theorem bestAnchorAt_len {anchors : List Bytes} {rest : Bytes}
    {aid len : Nat} (h : bestAnchorAt anchors rest = some (aid, len)) :
    1 ≤ len ∧ len ≤ rest.length := by
  unfold bestAnchorAt at h
  suffices hgen : ∀ (ps : List (Nat × Bytes)) (acc : Option (Nat × Nat)),
      (∀ q, acc = some q → 1 ≤ q.2 ∧ q.2 ≤ rest.length) →
      ∀ q, ps.foldl
        (fun acc p =>
          if p.2.isPrefixOf rest && !p.2.isEmpty then
            match acc with
            | none => some (p.1, p.2.length)
            | some q => if q.2 < p.2.length then some (p.1, p.2.length) else acc
          else acc)
        acc = some q → 1 ≤ q.2 ∧ q.2 ≤ rest.length by
    exact hgen (enumFrom 0 anchors) none (by intro q hq; cases hq) (aid, len) h
  intro ps
  induction ps with
  | nil => intro acc hacc q hq; exact hacc q hq
  | cons p ps ih =>
    intro acc hacc q hq
    simp only [List.foldl_cons] at hq
    refine ih _ ?_ q hq
    intro q' hq'
    split at hq'
    · next hcond =>
      simp only [Bool.and_eq_true] at hcond
      have hlen : p.2.length ≤ rest.length :=
        (List.isPrefixOf_iff_prefix.mp hcond.1).length_le
      have hpos : 1 ≤ p.2.length := by
        cases hp2 : p.2 with
        | nil => rw [hp2] at hcond; simp at hcond
        | cons x xs => simp
      cases hacc0 : acc with
      | none =>
        rw [hacc0] at hq'
        cases hq'
        exact ⟨hpos, hlen⟩
      | some q0 =>
        rw [hacc0] at hq'
        have hq2 : (if q0.2 < p.2.length then some (p.1, p.2.length)
            else some q0) = some q' := hq'
        by_cases hlt : q0.2 < p.2.length
        · rw [if_pos hlt] at hq2
          cases hq2
          exact ⟨hpos, hlen⟩
        · rw [if_neg hlt] at hq2
          cases hq2
          exact hacc _ hacc0
    · exact hacc q' hq'

/-- AC match positions lie inside the buffer. -/
theorem acFindIterAux_pos_lt {anchors : List Bytes} :
    ∀ (fuel : Nat) (rest : Bytes) (pos : Nat),
      ∀ h ∈ acFindIterAux anchors fuel rest pos,
        pos ≤ h.1 ∧ h.1 < pos + rest.length := by
  intro fuel
  induction fuel with
  | zero => intro rest pos h hh; cases hh
  | succ fuel ih =>
    intro rest pos h hh
    unfold acFindIterAux at hh
    cases rest with
    | nil => cases hh
    | cons x tail =>
      cases hb : bestAnchorAt anchors (x :: tail) with
      | some al =>
        obtain ⟨aid0, len0⟩ := al
        try rw [hb] at hh
        obtain ⟨hal1, hal2⟩ := bestAnchorAt_len hb
        rcases List.mem_cons.mp hh with h1 | h1
        · subst h1; simp
        · have := ih _ _ h h1
          simp only [List.length_drop, List.length_cons] at this ⊢
          omega
      | none =>
        try rw [hb] at hh
        have := ih _ _ h hh
        simp only [List.length_cons] at this ⊢
        omega

theorem acFindIter_pos_lt {anchors : List Bytes} {buf : Bytes} :
    ∀ h ∈ acFindIter anchors buf, h.1 < buf.length := by
  intro h hh
  have := (acFindIterAux_pos_lt buf.length buf 0 h hh).2
  omega

/-- A single raw window satisfies `start ≤ end ≤ buffer length`. -/
theorem windowFor_bounds {anchors : List Bytes} {bufLen pos aid : Nat}
    (hpos : pos < bufLen) :
    (windowFor anchors bufLen pos aid).1 ≤ (windowFor anchors bufLen pos aid).2 ∧
    (windowFor anchors bufLen pos aid).2 ≤ bufLen := by
  simp only [windowFor]
  constructor
  · refine le_min ?_ ?_ <;> omega
  · exact min_le_right _ _

/-- Every constructed window satisfies `start ≤ end ≤ buffer length`. -/
theorem buildWindows_bounds {anchors : List Bytes} {bufLen : Nat}
    {hits : List (Nat × Nat)} (hpos : ∀ h ∈ hits, h.1 < bufLen) :
    ∀ w ∈ buildWindows anchors bufLen hits, w.1 ≤ w.2.1 ∧ w.2.1 ≤ bufLen := by
  have hpos' : ∀ h ∈ sortBy posLE hits, h.1 < bufLen := by
    intro h hh
    exact hpos h ((sortBy_perm posLE hits).mem_iff.mp hh)
  unfold buildWindows
  suffices hgen : ∀ (l : List (Nat × Nat)) (acc : List (Nat × Nat × List Nat)),
      (∀ h ∈ l, h.1 < bufLen) →
      (∀ w ∈ acc, w.1 ≤ w.2.1 ∧ w.2.1 ≤ bufLen) →
      ∀ w ∈ l.foldl
        (fun acc h =>
          let w := windowFor anchors bufLen h.1 h.2
          pushWindow acc w.1 w.2 h.2)
        acc, w.1 ≤ w.2.1 ∧ w.2.1 ≤ bufLen by
    intro w hw
    exact hgen (sortBy posLE hits) [] hpos' (by simp) w (List.mem_reverse.mp hw)
  intro l
  induction l with
  | nil => intro acc _ hacc w hw; exact hacc w hw
  | cons h l ih =>
    intro acc hl hacc w hw
    simp only [List.foldl_cons] at hw
    have hh : h.1 < bufLen := hl h (List.mem_cons_self _ _)
    have hwf := @windowFor_bounds anchors bufLen h.1 h.2 hh
    refine ih (pushWindow acc (windowFor anchors bufLen h.1 h.2).1
        (windowFor anchors bufLen h.1 h.2).2 h.2)
      (fun g hg => hl g (List.mem_cons_of_mem _ hg)) ?_ w hw
    intro w' hw'
    cases acc with
    | nil =>
      unfold pushWindow at hw'
      rw [List.mem_singleton.mp hw']
      exact hwf
    | cons last rest =>
      have hw2 : w' ∈
          (if (windowFor anchors bufLen h.1 h.2).1 ≤ last.2.1 then
            (last.1, max last.2.1 (windowFor anchors bufLen h.1 h.2).2,
              last.2.2 ++ [h.2]) :: rest
          else ((windowFor anchors bufLen h.1 h.2).1,
            (windowFor anchors bufLen h.1 h.2).2, [h.2]) :: last :: rest) := hw'
      split at hw2
      · rcases List.mem_cons.mp hw2 with h1 | h1
        · subst h1
          have hlast := hacc last (List.mem_cons_self _ _)
          exact ⟨le_trans hlast.1 (le_max_left _ _), max_le hlast.2 hwf.2⟩
        · exact hacc w' (List.mem_cons_of_mem _ h1)
      · rcases List.mem_cons.mp hw2 with h1 | h1
        · subst h1; exact hwf
        · exact hacc w' h1

/-! ## C5 — offset soundness -/

/-- A finding is offset-sound for a buffer scanned at `base`: its value is
the lossy decoding of the slice of the buffer at its recorded offset, and
that slice is valid UTF-8. -/
def OffSound (buf : Bytes) (base : Nat) (f : Finding) : Prop :=
  ∃ s l, f.startOffset = base + s ∧ s + l ≤ buf.length ∧
    f.value = utf8Lossy ((buf.drop s).take l) ∧
    utf8Valid ((buf.drop s).take l) = true

/-- Soundness of the matcher oracles: reported spans lie inside the
haystack and the matched bytes are valid UTF-8 (the meta regexes compiled
by `get_or_compile_meta_regex` use the default UTF-8 mode, whose matches
are always valid UTF-8). -/
def MatcherSound (ctx : ScanCtx) : Prop :=
  ∀ ri m, ctx.matchers ri = some m → ∀ (b : Bytes), ∀ sp ∈ m b,
    sp.2 ≤ b.length ∧ utf8Valid ((b.drop sp.1).take (sp.2 - sp.1)) = true

theorem emitSpans_offSound {buf : Bytes} {base ws we : Nat} {fileHash : Bytes}
    (hwswe : ws ≤ we) (hwe : we ≤ buf.length) (spans : List (Nat × Nat))
    (hspans : ∀ sp ∈ spans,
      sp.2 ≤ ((buf.drop ws).take (we - ws)).length ∧
      utf8Valid ((((buf.drop ws).take (we - ws)).drop sp.1).take
        (sp.2 - sp.1)) = true) :
    ∀ st, (∀ f ∈ st.2, OffSound buf base f) →
      ∀ f ∈ (emitSpans fileHash base ws ((buf.drop ws).take (we - ws))
        spans st).2, OffSound buf base f := by
  induction spans with
  | nil => intro st hst f hf; exact hst f hf
  | cons sp spans ih =>
    intro st hst
    have hsp := hspans sp (List.mem_cons_self _ _)
    have hspans' : ∀ q ∈ spans, q.2 ≤ ((buf.drop ws).take (we - ws)).length ∧
        utf8Valid ((((buf.drop ws).take (we - ws)).drop q.1).take
          (q.2 - q.1)) = true :=
      fun q hq => hspans q (List.mem_cons_of_mem _ hq)
    show ∀ f ∈ (emitSpans fileHash base ws _ (sp :: spans) st).2, _
    unfold emitSpans
    simp only [List.foldl_cons]
    split
    · exact ih hspans' st hst
    · split
      · exact ih hspans' st hst
      · next hne hnew =>
        refine ih hspans' _ ?_
        intro f hf
        rcases List.mem_append.mp hf with h | h
        · exact hst f h
        · rw [List.mem_singleton.mp h]
          -- the newly emitted finding
          have hlenw : ((buf.drop ws).take (we - ws)).length = we - ws := by
            rw [List.length_take, List.length_drop]
            omega
          have hsp2 : sp.2 ≤ we - ws := by rw [hlenw] at hsp; exact hsp.1
          have hlt : sp.1 < sp.2 := by omega
          have hslice : (((buf.drop ws).take (we - ws)).drop sp.1).take
              (sp.2 - sp.1) = (buf.drop (ws + sp.1)).take (sp.2 - sp.1) :=
            slice_slice (by omega)
          refine ⟨ws + sp.1, sp.2 - sp.1, ?_, by omega, ?_, ?_⟩
          · show base + ws + sp.1 = base + (ws + sp.1)
            omega
          · show utf8Lossy _ = _
            rw [← hslice]
          · rw [← hslice]
            exact hsp.2

theorem scanBuffer_offSound (ctx : ScanCtx) (hm : MatcherSound ctx)
    (plan : PrefilterPlan) (buf : Bytes) (base : Nat) (fileHash : Bytes) :
    ∀ f ∈ scanBufferWithPrefilter ctx plan buf base fileHash,
      OffSound buf base f := by
  have hgen : ∀ (wlist : List (Nat × Nat × List Nat)),
      (∀ w ∈ wlist, w.1 ≤ w.2.1 ∧ w.2.1 ≤ buf.length) →
      ∀ (st : List Bytes × List Finding), (∀ f ∈ st.2, OffSound buf base f) →
      ∀ f ∈ (wlist.foldl
        (fun (st : List Bytes × List Finding) (w : Nat × Nat × List Nat) =>
          (ctx.ruleOrder
            (dedupNats ((w.2.2.map
              (fun aid => plan.anchorToRules.getD aid [])).flatten))).foldl
            (fun st ri =>
              match ctx.matchers ri with
              | some m => emitSpans fileHash base w.1
                  ((buf.drop w.1).take (w.2.1 - w.1))
                  (m ((buf.drop w.1).take (w.2.1 - w.1))) st
              | none => st)
            st)
        st).2, OffSound buf base f := by
    intro wlist
    induction wlist with
    | nil => intro _ st hst f hf; exact hst f hf
    | cons w wlist ih =>
      intro hws st hst
      simp only [List.foldl_cons]
      refine ih (fun w' hw' => hws w' (List.mem_cons_of_mem _ hw')) _ ?_
      have hbounds := hws w (List.mem_cons_self _ _)
      have hr : ∀ (rules : List Nat) (st : List Bytes × List Finding),
          (∀ f ∈ st.2, OffSound buf base f) →
          ∀ f ∈ (rules.foldl
            (fun st ri =>
              match ctx.matchers ri with
              | some m => emitSpans fileHash base w.1
                  ((buf.drop w.1).take (w.2.1 - w.1))
                  (m ((buf.drop w.1).take (w.2.1 - w.1))) st
              | none => st)
            st).2, OffSound buf base f := by
        intro rules
        induction rules with
        | nil => intro st hst f hf; exact hst f hf
        | cons ri rules ihr =>
          intro st hst
          simp only [List.foldl_cons]
          cases hmi : ctx.matchers ri with
          | none => exact ihr st hst
          | some m =>
            refine ihr _ ?_
            exact emitSpans_offSound hbounds.1 hbounds.2 _
              (fun sp hsp => hm ri m hmi _ sp hsp) st hst
      exact hr _ st hst
  intro f hf
  have hwb := @buildWindows_bounds plan.anchors buf.length
    (acFindIter plan.anchors buf) acFindIter_pos_lt
  exact hgen (buildWindows plan.anchors buf.length (acFindIter plan.anchors buf))
    hwb ([], []) (by simp) f hf

/-- Membership in the chunked merge: a merged finding is an old one or one
of the chunk's. -/
theorem mergeFold_mem {part : List Finding} :
    ∀ (st : List Bytes × List Finding) (f : Finding),
      f ∈ (part.foldl
        (fun (p : List Bytes × List Finding) g =>
          if g.value ∈ p.1 then p else (g.value :: p.1, p.2 ++ [g]))
        st).2 → f ∈ st.2 ∨ f ∈ part := by
  induction part with
  | nil => intro st f hf; exact Or.inl hf
  | cons g part ih =>
    intro st f hf
    simp only [List.foldl_cons] at hf
    split at hf
    · rcases ih st f hf with h | h
      · exact Or.inl h
      · exact Or.inr (List.mem_cons_of_mem _ h)
    · rcases ih _ f hf with h | h
      · rcases List.mem_append.mp h with h1 | h1
        · exact Or.inl h1
        · exact Or.inr (by rw [List.mem_singleton.mp h1]; exact List.mem_cons_self _ _)
      · exact Or.inr (List.mem_cons_of_mem _ h)

/-- The loop invariant of the chunked reader: the carry is exactly the
file's slice before the read position, and all findings so far are
offset-sound against the whole file. -/
def ChunkInv (file : Bytes) (st : ChunkState) : Prop :=
  st.fileOffset ≤ file.length ∧ st.carry.length ≤ st.fileOffset ∧
  st.carry = (file.drop (st.fileOffset - st.carry.length)).take
    st.carry.length ∧
  ∀ f ∈ st.found, OffSound file 0 f

theorem chunkStep_inv (ctx : ScanCtx) (hm : MatcherSound ctx)
    (plan : PrefilterPlan) (file fileHash : Bytes) (st : ChunkState)
    (hst : ChunkInv file st) (r : Nat) (hr1 : 1 ≤ r)
    (hr2 : r ≤ file.length - st.fileOffset) :
    ChunkInv file (chunkStep ctx plan file fileHash st r) := by
  obtain ⟨h1, h2, h3, h4⟩ := hst
  have hbase : st.fileOffset - st.carry.length + st.carry.length
      = st.fileOffset := by omega
  have hchunk : (file.drop (st.fileOffset - st.carry.length)).take
      (st.carry.length + r) = chunkOf file st.carry st.fileOffset r := by
    rw [List.take_add, List.drop_drop, hbase, ← h3]
    rfl
  have hclen : (chunkOf file st.carry st.fileOffset r).length
      = st.carry.length + r := by
    rw [← hchunk, List.length_take, List.length_drop]
    omega
  have hpart : ∀ f ∈ scanBufferWithPrefilter ctx plan
      (chunkOf file st.carry st.fileOffset r)
      (st.fileOffset - st.carry.length) fileHash, OffSound file 0 f := by
    intro f hf
    obtain ⟨s, l, hoff, hbound, hval, hvalid⟩ :=
      scanBuffer_offSound ctx hm plan _ _ fileHash f hf
    rw [hclen] at hbound
    have hslice : ((chunkOf file st.carry st.fileOffset r).drop s).take l
        = (file.drop (st.fileOffset - st.carry.length + s)).take l := by
      rw [← hchunk]
      exact slice_slice (by omega)
    refine ⟨st.fileOffset - st.carry.length + s, l, by omega, by omega, ?_, ?_⟩
    · rw [hval, hslice]
    · rw [← hslice]
      exact hvalid
  have hK : min CHUNK_OVERLAP (st.carry.length + r) ≤ st.carry.length + r :=
    min_le_right _ _
  have hlen2 : (((chunkOf file st.carry st.fileOffset r).drop
      (st.carry.length + r - min CHUNK_OVERLAP (st.carry.length + r))).take
      (min CHUNK_OVERLAP (st.carry.length + r))).length
      = min CHUNK_OVERLAP (st.carry.length + r) := by
    rw [List.length_take, List.length_drop, hclen]
    omega
  simp only [chunkStep]
  refine ⟨?_, ?_, ?_, ?_⟩ <;> dsimp only
  · omega
  · -- keep ≤ new offset
    rw [hlen2]
    omega
  · -- the new carry is the file's tail slice before the new offset
    rw [hlen2]
    rw [← hchunk, slice_slice (by omega)]
    have harg : st.fileOffset - st.carry.length +
        (st.carry.length + r - min CHUNK_OVERLAP (st.carry.length + r))
        = st.fileOffset + r - min CHUNK_OVERLAP (st.carry.length + r) := by
      omega
    rw [harg]
  · intro f hf
    rcases mergeFold_mem (st.seen, st.found) f hf with h | h
    · exact h4 f h
    · exact hpart f h

theorem scanChunks_inv (ctx : ScanCtx) (hm : MatcherSound ctx)
    (plan : PrefilterPlan) (file fileHash : Bytes) :
    ∀ (sched : List Nat) (st : ChunkState), ChunkInv file st →
      ChunkInv file (scanChunksAux ctx plan file fileHash sched st) := by
  intro sched
  induction sched with
  | nil => intro st h; exact h
  | cons n rest ih =>
    intro st h
    show ChunkInv file _
    unfold scanChunksAux
    split
    · exact h
    · split
      · exact h
      · split
        · exact ih _ ⟨h.1, h.2.1, h.2.2.1, h.2.2.2⟩
        · next hne _ =>
          refine ih _ (chunkStep_inv ctx hm plan file fileHash st h _ ?_ ?_)
          · omega
          · unfold readLen
            omega

/-- C5: for every finding emitted by either bytes path (whole-buffer or
chunked with any read schedule), the slice of the original file at
`start_offset` of the value's byte length, decoded lossily, equals the
emitted value — given matcher oracles whose spans are in-bounds and match
valid UTF-8 (as the default-mode meta regexes guarantee). -/
theorem claim5_offset_soundness (ctx : ScanCtx) (plan : PrefilterPlan)
    (hm : MatcherSound ctx) (file fileHash : Bytes) (sched : List Nat) :
    (∀ f ∈ scanFileBytesPrefilter ctx plan file fileHash,
      utf8Lossy ((file.drop f.startOffset).take f.value.length) = f.value) ∧
    (∀ f ∈ scanFileBytesChunkedPrefilter ctx plan file fileHash sched,
      utf8Lossy ((file.drop f.startOffset).take f.value.length) = f.value) := by
  have hconv : ∀ f : Finding, OffSound file 0 f →
      utf8Lossy ((file.drop f.startOffset).take f.value.length) = f.value := by
    rintro f ⟨s, l, hoff, hbound, hval, hvalid⟩
    have hraw : f.value = (file.drop s).take l := by
      rw [hval, utf8Lossy_of_valid hvalid]
    have hlen : f.value.length = l := by
      rw [hraw, List.length_take, List.length_drop]
      omega
    have hoff' : f.startOffset = s := by omega
    rw [hoff', hlen, ← hraw, hraw]
    rw [← hraw]
    exact utf8Lossy_of_valid (by rw [hraw]; exact hvalid)
  constructor
  · intro f hf
    unfold scanFileBytesPrefilter at hf
    split at hf
    · cases hf
    · exact hconv f (by
        obtain ⟨s, l, hoff, hb, hv, hvd⟩ :=
          scanBuffer_offSound ctx hm plan file 0 fileHash f hf
        exact ⟨s, l, hoff, hb, hv, hvd⟩)
  · intro f hf
    unfold scanFileBytesChunkedPrefilter at hf
    split at hf
    · cases hf
    · have hinit : ChunkInv file
        { aborted := false, seen := [], found := [], carry := [],
          fileOffset := 0 } := by
        refine ⟨by simp, by simp, by simp, by simp⟩
      exact hconv f ((scanChunks_inv ctx hm plan file fileHash sched _
        hinit).2.2.2 f hf)

/-! C5 witness material: the literal matcher is a sound oracle. -/

theorem literalMatcherAux_spans (lit : Bytes) :
    ∀ (fuel : Nat) (b : Bytes) (pos : Nat), pos ≤ b.length →
      ∀ sp ∈ literalMatcherAux lit fuel (b.drop pos) pos,
        sp.2 ≤ b.length ∧ (b.drop sp.1).take (sp.2 - sp.1) = lit := by
  intro fuel
  induction fuel with
  | zero => intro b pos _ sp hsp; cases hsp
  | succ fuel ih =>
    intro b pos hpos sp hsp
    unfold literalMatcherAux at hsp
    cases hrest : b.drop pos with
    | nil => rw [hrest] at hsp; cases hsp
    | cons x tail =>
      rw [hrest] at hsp
      have hplen : pos < b.length := by
        have : (b.drop pos).length = b.length - pos := List.length_drop _ _
        rw [hrest] at this
        simp at this
        omega
      have hsp2 : sp ∈ (if (lit.isPrefixOf (x :: tail) && !lit.isEmpty) = true
          then (pos, pos + lit.length) ::
            literalMatcherAux lit fuel ((x :: tail).drop lit.length)
              (pos + lit.length)
          else literalMatcherAux lit fuel tail (pos + 1)) := hsp
      clear hsp
      split at hsp2
      · next hcond =>
        simp only [Bool.and_eq_true] at hcond
        have hpre : lit <+: (x :: tail) :=
          List.isPrefixOf_iff_prefix.mp hcond.1
        have hlitlen : lit.length ≤ (x :: tail).length := hpre.length_le
        have hrlen : (x :: tail).length = b.length - pos := by
          rw [← hrest, List.length_drop]
        rcases List.mem_cons.mp hsp2 with h1 | h1
        · subst h1
          constructor
          · simp only
            omega
          · simp only
            rw [Nat.add_sub_cancel_left, hrest]
            exact (List.prefix_iff_eq_take.mp hpre).symm
        · have hdrop : (x :: tail).drop lit.length
              = b.drop (pos + lit.length) := by
            rw [← hrest, List.drop_drop]
          rw [hdrop] at h1
          exact ih b (pos + lit.length) (by omega) sp h1
      · have hdrop : tail = b.drop (pos + 1) := by
          have : (b.drop pos).drop 1 = b.drop (pos + 1) := List.drop_drop _ _ _
          rw [hrest] at this
          simpa using this
        rw [hdrop] at hsp2
        exact ih b (pos + 1) (by omega) sp hsp2

theorem literalMatcher_sound (lit : Bytes) (hvalid : utf8Valid lit = true) :
    ∀ (b : Bytes), ∀ sp ∈ literalMatcher lit b,
      sp.2 ≤ b.length ∧
      utf8Valid ((b.drop sp.1).take (sp.2 - sp.1)) = true := by
  intro b sp hsp
  have hsp' : sp ∈ literalMatcherAux lit b.length (b.drop 0) 0 := by
    simpa [List.drop_zero] using hsp
  have := literalMatcherAux_spans lit b.length b 0 (by omega) sp hsp'
  exact ⟨this.1, by rw [this.2]; exact hvalid⟩

/-- The scan environment of the C5 witness: one literal rule. -/
def c5Ctx : ScanCtx :=
  { matchers := fun i =>
      if i = 0 then some (literalMatcher (asciiBytes "mytok-111")) else none,
    ruleOrder := id }

theorem c5Ctx_sound : MatcherSound c5Ctx := by
  intro ri m hmi b sp hsp
  unfold c5Ctx at hmi
  simp only at hmi
  split at hmi
  · cases hmi
    exact literalMatcher_sound _ (by decide) b sp hsp
  · cases hmi

/-- Witness for C5 on a concrete file under the literal rule. -/
theorem claim5_witness :
    (∀ f ∈ scanFileBytesPrefilter c5Ctx c2Plan
        (asciiBytes "amytok-111z") (asciiBytes "f"),
      utf8Lossy (((asciiBytes "amytok-111z").drop f.startOffset).take
        f.value.length) = f.value) ∧
    (∀ f ∈ scanFileBytesChunkedPrefilter c5Ctx c2Plan
        (asciiBytes "amytok-111z") (asciiBytes "f") [11],
      utf8Lossy (((asciiBytes "amytok-111z").drop f.startOffset).take
        f.value.length) = f.value) :=
  claim5_offset_soundness c5Ctx c2Plan c5Ctx_sound
    (asciiBytes "amytok-111z") (asciiBytes "f") [11]

/-! ## C4 — prefilter soundness -/

/-- The single rule of the C4 counterexample: its only anchor `mytoken` is a
true necessary literal of `[A-Za-z0-9]{200}mytoken`. -/
def c4Plan : PrefilterPlan :=
  buildPrefilterPlan [asciiBytes "[A-Za-z0-9]\x7b200\x7dmytoken"]

def c4Ctx : ScanCtx :=
  { matchers := fun i => if i = 0 then some alnum200Matcher else none,
    ruleOrder := id }

/-- A buffer whose single match starts 200 bytes before its anchor. -/
def c4Buf : Bytes := List.replicate 200 65 ++ asciiBytes "mytoken"

set_option maxRecDepth 20000 in
/-- C4 counterexample: the rule's extracted anchor `mytoken` is a necessary
literal, yet the naive whole-buffer path finds the match (which begins 200
bytes before the anchor) while the prefilter path does not: its window
opens only 128 bytes before the anchor hit, so the precise regex cannot
match inside the truncated window.  The two finding sets differ. -/
theorem claim4_counterexample :
    scanFileBytesNaive [some alnum200Matcher] c4Buf (asciiBytes "f") ≠
    scanBufferWithPrefilter c4Ctx c4Plan c4Buf 0 (asciiBytes "f") := by
  decide

/-! Helper lemmas for the amended C4 theorem. -/

theorem dedupNats_all_zero :
    ∀ (l : List Nat), l ≠ [] → (∀ x ∈ l, x = 0) → dedupNats l = [0] := by
  have hgen : ∀ (l : List Nat) (acc : List Nat), (∀ x ∈ l, x = 0) →
      0 ∈ acc → (l.foldl
        (fun (acc : List Nat) x => if x ∈ acc then acc else acc ++ [x]) acc)
        = acc := by
    intro l
    induction l with
    | nil => intro acc _ _; rfl
    | cons x xs ih =>
      intro acc hx h0
      simp only [List.foldl_cons]
      rw [if_pos (by rw [hx x (List.mem_cons_self _ _)]; exact h0)]
      exact ih acc (fun y hy => hx y (List.mem_cons_of_mem _ hy)) h0
  intro l hne hx
  cases l with
  | nil => exact absurd rfl hne
  | cons x xs =>
    unfold dedupNats
    simp only [List.foldl_cons]
    rw [if_neg (by simp), hx x (List.mem_cons_self _ _)]
    exact hgen xs [0] (fun y hy => hx y (List.mem_cons_of_mem _ hy)) (by simp)

/-- `bestAnchorAt` reports a pattern id below the anchor count. -/
theorem bestAnchorAt_aid_lt {anchors : List Bytes} {rest : Bytes}
    {aid len : Nat} (h : bestAnchorAt anchors rest = some (aid, len)) :
    aid < anchors.length := by
  unfold bestAnchorAt at h
  suffices hgen : ∀ (i : Nat) (l : List Bytes) (acc : Option (Nat × Nat)),
      (∀ q, acc = some q → q.1 < anchors.length) →
      i + l.length ≤ anchors.length →
      ∀ q, (enumFrom i l).foldl
        (fun acc p =>
          if p.2.isPrefixOf rest && !p.2.isEmpty then
            match acc with
            | none => some (p.1, p.2.length)
            | some q => if q.2 < p.2.length then some (p.1, p.2.length) else acc
          else acc)
        acc = some q → q.1 < anchors.length by
    exact hgen 0 anchors none (by intro q hq; cases hq) (by omega) (aid, len) h
  intro i l
  induction l generalizing i with
  | nil => intro acc hacc _ q hq; exact hacc q hq
  | cons p ps ih =>
    intro acc hacc hle q hq
    simp only [enumFrom, List.foldl_cons] at hq
    simp only [List.length_cons] at hle
    refine ih (i + 1) _ ?_ (by omega) q hq
    intro q' hq'
    split at hq'
    · cases hacc0 : acc with
      | none =>
        rw [hacc0] at hq'
        cases hq'
        simp only
        omega
      | some q0 =>
        rw [hacc0] at hq'
        have hq2 : (if q0.2 < p.length then some (i, p.length)
            else some q0) = some q' := hq'
        by_cases hlt : q0.2 < p.length
        · rw [if_pos hlt] at hq2
          cases hq2
          simp only
          omega
        · rw [if_neg hlt] at hq2
          cases hq2
          exact hacc _ hacc0
    · exact hacc q' hq'

/-- AC hits report valid anchor ids. -/
theorem acFindIterAux_aid_lt {anchors : List Bytes} :
    ∀ (fuel : Nat) (rest : Bytes) (pos : Nat),
      ∀ h ∈ acFindIterAux anchors fuel rest pos, h.2 < anchors.length := by
  intro fuel
  induction fuel with
  | zero => intro rest pos h hh; cases hh
  | succ fuel ih =>
    intro rest pos h hh
    unfold acFindIterAux at hh
    cases rest with
    | nil => cases hh
    | cons x tail =>
      cases hb : bestAnchorAt anchors (x :: tail) with
      | some al =>
        obtain ⟨aid0, len0⟩ := al
        try rw [hb] at hh
        rcases List.mem_cons.mp hh with h1 | h1
        · subst h1
          exact bestAnchorAt_aid_lt hb
        · exact ih _ _ h h1
      | none =>
        try rw [hb] at hh
        exact ih _ _ h hh

/-- Every constructed window carries at least one anchor id, and all its
anchor ids are valid. -/
theorem buildWindows_aids {anchors : List Bytes} {bufLen : Nat}
    {hits : List (Nat × Nat)} (haid : ∀ h ∈ hits, h.2 < anchors.length) :
    ∀ w ∈ buildWindows anchors bufLen hits,
      w.2.2 ≠ [] ∧ ∀ aid ∈ w.2.2, aid < anchors.length := by
  have haid' : ∀ h ∈ sortBy posLE hits, h.2 < anchors.length := by
    intro h hh
    exact haid h ((sortBy_perm posLE hits).mem_iff.mp hh)
  unfold buildWindows
  suffices hgen : ∀ (l : List (Nat × Nat)) (acc : List (Nat × Nat × List Nat)),
      (∀ h ∈ l, h.2 < anchors.length) →
      (∀ w ∈ acc, w.2.2 ≠ [] ∧ ∀ aid ∈ w.2.2, aid < anchors.length) →
      ∀ w ∈ l.foldl
        (fun acc h =>
          let w := windowFor anchors bufLen h.1 h.2
          pushWindow acc w.1 w.2 h.2)
        acc, w.2.2 ≠ [] ∧ ∀ aid ∈ w.2.2, aid < anchors.length by
    intro w hw
    exact hgen (sortBy posLE hits) [] haid' (by simp) w (List.mem_reverse.mp hw)
  intro l
  induction l with
  | nil => intro acc _ hacc w hw; exact hacc w hw
  | cons h l ih =>
    intro acc hl hacc w hw
    simp only [List.foldl_cons] at hw
    have hh : h.2 < anchors.length := hl h (List.mem_cons_self _ _)
    refine ih (pushWindow acc (windowFor anchors bufLen h.1 h.2).1
        (windowFor anchors bufLen h.1 h.2).2 h.2)
      (fun g hg => hl g (List.mem_cons_of_mem _ hg)) ?_ w hw
    intro w' hw'
    cases acc with
    | nil =>
      unfold pushWindow at hw'
      rw [List.mem_singleton.mp hw']
      exact ⟨by simp, by simpa using hh⟩
    | cons last rest =>
      have hw2 : w' ∈
          (if (windowFor anchors bufLen h.1 h.2).1 ≤ last.2.1 then
            (last.1, max last.2.1 (windowFor anchors bufLen h.1 h.2).2,
              last.2.2 ++ [h.2]) :: rest
          else ((windowFor anchors bufLen h.1 h.2).1,
            (windowFor anchors bufLen h.1 h.2).2, [h.2]) :: last :: rest) := hw'
      split at hw2
      · rcases List.mem_cons.mp hw2 with h1 | h1
        · subst h1
          have hlast := hacc last (List.mem_cons_self _ _)
          refine ⟨by simp, ?_⟩
          intro aid haidm
          rcases List.mem_append.mp haidm with h2 | h2
          · exact hlast.2 aid h2
          · rw [List.mem_singleton.mp h2]; exact hh
        · exact hacc w' (List.mem_cons_of_mem _ h1)
      · rcases List.mem_cons.mp hw2 with h1 | h1
        · subst h1
          exact ⟨by simp, by simpa using hh⟩
        · exact hacc w' h1

/-- Consecutive constructed windows are disjoint: each ends strictly before
the next begins. -/
theorem buildWindows_chain {anchors : List Bytes} {bufLen : Nat}
    {hits : List (Nat × Nat)} :
    (buildWindows anchors bufLen hits).Chain'
      (fun a b => a.2.1 < b.1) := by
  unfold buildWindows
  suffices hgen : ∀ (l : List (Nat × Nat)) (acc : List (Nat × Nat × List Nat)),
      acc.Chain' (fun a b => b.2.1 < a.1) →
      (l.foldl
        (fun acc h =>
          let w := windowFor anchors bufLen h.1 h.2
          pushWindow acc w.1 w.2 h.2)
        acc).Chain' (fun a b => b.2.1 < a.1) by
    rw [List.chain'_reverse]
    exact hgen (sortBy posLE hits) [] (by simp)
  intro l
  induction l with
  | nil => intro acc hacc; exact hacc
  | cons h l ih =>
    intro acc hacc
    simp only [List.foldl_cons]
    refine ih _ ?_
    cases acc with
    | nil =>
      have hred : pushWindow [] (windowFor anchors bufLen h.1 h.2).1
          (windowFor anchors bufLen h.1 h.2).2 h.2 =
          [((windowFor anchors bufLen h.1 h.2).1,
            (windowFor anchors bufLen h.1 h.2).2, [h.2])] := rfl
      rw [hred]
      simp
    | cons last rest =>
      have hred : pushWindow (last :: rest) (windowFor anchors bufLen h.1 h.2).1
          (windowFor anchors bufLen h.1 h.2).2 h.2 =
          if (windowFor anchors bufLen h.1 h.2).1 ≤ last.2.1 then
            (last.1, max last.2.1 (windowFor anchors bufLen h.1 h.2).2,
              last.2.2 ++ [h.2]) :: rest
          else ((windowFor anchors bufLen h.1 h.2).1,
            (windowFor anchors bufLen h.1 h.2).2, [h.2]) :: last :: rest := rfl
      rw [hred]
      split
      · -- merged window keeps the previous start
        cases rest with
        | nil => simp
        | cons second rest2 =>
          rw [List.chain'_cons] at hacc ⊢
          exact ⟨hacc.1, hacc.2⟩
      · next hgt =>
        rw [List.chain'_cons]
        exact ⟨by omega, hacc⟩

/-- In a chain of strictly separated windows, the head ends before every
later window starts (using that each window's start is at most its end). -/
theorem chain_windows_head_lt :
    ∀ (rest : List (Nat × Nat × List Nat)) (w : Nat × Nat × List Nat),
      (w :: rest).Chain' (fun a b => a.2.1 < b.1) →
      (∀ v ∈ w :: rest, v.1 ≤ v.2.1) →
      ∀ v ∈ rest, w.2.1 < v.1 := by
  intro rest
  induction rest with
  | nil => intro w _ _ v hv; cases hv
  | cons u rest2 ih =>
    intro w hchain hbnd v hv
    rw [List.chain'_cons] at hchain
    rcases List.mem_cons.mp hv with h1 | h1
    · subst h1; exact hchain.1
    · have hu : u.2.1 < v.1 := ih u hchain.2
        (fun x hx => hbnd x (List.mem_cons_of_mem _ hx)) v h1
      have h2 : u.1 ≤ u.2.1 :=
        hbnd u (List.mem_cons_of_mem _ (List.mem_cons_self _ _))
      have h3 : w.2.1 < u.1 := hchain.1
      omega

/-- A chain of strictly separated windows is pairwise separated. -/
theorem windows_chain_pairwise {ws : List (Nat × Nat × List Nat)}
    (hchain : ws.Chain' (fun a b => a.2.1 < b.1))
    (hbnd : ∀ w ∈ ws, w.1 ≤ w.2.1) :
    ws.Pairwise (fun a b => a.2.1 < b.1) := by
  induction ws with
  | nil => exact List.Pairwise.nil
  | cons w rest ih =>
    rw [List.chain'_cons'] at hchain
    refine List.Pairwise.cons ?_ (ih hchain.2
      (fun v hv => hbnd v (List.mem_cons_of_mem _ hv)))
    refine chain_windows_head_lt rest w ?_ hbnd
    rw [List.chain'_cons']
    exact hchain

/-- One step of the emit loop, unfolded. -/
theorem emitSpans_cons (fileHash : Bytes) (baseOff ws : Nat) (window : Bytes)
    (sp : Nat × Nat) (spans : List (Nat × Nat))
    (st : List Bytes × List Finding) :
    emitSpans fileHash baseOff ws window (sp :: spans) st =
      emitSpans fileHash baseOff ws window spans
        (if sp.2 ≤ sp.1 then st
         else
           let raw := (window.drop sp.1).take (sp.2 - sp.1)
           let value := utf8Lossy raw
           if value ∈ st.1 then st
           else (value :: st.1,
                 st.2 ++ [{ fileHash := fileHash, value := value,
                            startOffset := baseOff + ws + sp.1 }])) := rfl

/-- The emit loop over a concatenation of span lists is the composition of
the emit loops. -/
theorem emitSpans_append (fileHash : Bytes) (baseOff ws : Nat) (window : Bytes)
    (l1 l2 : List (Nat × Nat)) (st : List Bytes × List Finding) :
    emitSpans fileHash baseOff ws window (l1 ++ l2) st =
      emitSpans fileHash baseOff ws window l2
        (emitSpans fileHash baseOff ws window l1 st) := by
  simp only [emitSpans, List.foldl_append]

/-- Emitting window-local spans over a window slice at window offset `w1`
equals emitting the corresponding buffer-global spans over the whole buffer
at offset `0`: the decoded values and the recorded offsets coincide. -/
theorem emitSpans_shift {fileHash buf : Bytes} {w1 w2 : Nat}
    (hw : w1 ≤ w2) (hw2 : w2 ≤ buf.length) :
    ∀ (S : List (Nat × Nat)) (st : List Bytes × List Finding),
      (∀ sp ∈ S, w1 ≤ sp.1 ∧ sp.2 ≤ w2) →
      emitSpans fileHash 0 w1 ((buf.drop w1).take (w2 - w1))
        (S.map (fun sp => (sp.1 - w1, sp.2 - w1))) st
        = emitSpans fileHash 0 0 buf S st := by
  intro S
  induction S with
  | nil => intro st _; rfl
  | cons sp S ih =>
    intro st hS
    have hsp := hS sp (List.mem_cons_self _ _)
    rw [List.map_cons, emitSpans_cons, emitSpans_cons]
    have harg :
        (if (sp.1 - w1, sp.2 - w1).2 ≤ (sp.1 - w1, sp.2 - w1).1 then st
         else
           let raw := ((((buf.drop w1).take (w2 - w1)).drop
             (sp.1 - w1, sp.2 - w1).1).take
               ((sp.1 - w1, sp.2 - w1).2 - (sp.1 - w1, sp.2 - w1).1))
           let value := utf8Lossy raw
           if value ∈ st.1 then st
           else (value :: st.1,
                 st.2 ++ [{ fileHash := fileHash, value := value,
                            startOffset := 0 + w1 + (sp.1 - w1, sp.2 - w1).1 }]))
        = (if sp.2 ≤ sp.1 then st
           else
             let raw := ((buf.drop sp.1).take (sp.2 - sp.1))
             let value := utf8Lossy raw
             if value ∈ st.1 then st
             else (value :: st.1,
                   st.2 ++ [{ fileHash := fileHash, value := value,
                              startOffset := 0 + 0 + sp.1 }])) := by
      by_cases hle : sp.2 ≤ sp.1
      · rw [if_pos (by simp only; omega), if_pos hle]
      · rw [if_neg (by simp only; omega), if_neg hle]
        have hraw : (((buf.drop w1).take (w2 - w1)).drop
            (sp.1 - w1, sp.2 - w1).1).take
              ((sp.1 - w1, sp.2 - w1).2 - (sp.1 - w1, sp.2 - w1).1)
            = (buf.drop sp.1).take (sp.2 - sp.1) := by
          simp only
          rw [show (sp.2 - w1) - (sp.1 - w1) = sp.2 - sp.1 by omega]
          rw [slice_slice (by omega)]
          rw [show w1 + (sp.1 - w1) = sp.1 by omega]
        simp only at hraw ⊢
        rw [hraw, show 0 + w1 + (sp.1 - w1) = 0 + 0 + sp.1 by omega]
    rw [harg]
    exact ih _ (fun x hx => hS x (List.mem_cons_of_mem _ hx))

/-- The per-window fold of `scanBufferWithPrefilter`, in the single-rule
situation (every anchor maps to rule 0, identity rule order): it equals one
global emit loop over the per-window filtered global spans, provided the
precise matcher is local to each window. -/
theorem c4_fold_eq (ctx : ScanCtx) (plan : PrefilterPlan)
    (buf fileHash : Bytes) (m : Bytes → List (Nat × Nat))
    (hm : ctx.matchers 0 = some m)
    (hro : ∀ l, ctx.ruleOrder l = l)
    (hat : ∀ aid, aid < plan.anchors.length →
      plan.anchorToRules.getD aid [] = [0]) :
    ∀ (Ws : List (Nat × Nat × List Nat)) (st : List Bytes × List Finding),
      (∀ w ∈ Ws, w.1 ≤ w.2.1 ∧ w.2.1 ≤ buf.length) →
      (∀ w ∈ Ws, w.2.2 ≠ [] ∧ ∀ aid ∈ w.2.2, aid < plan.anchors.length) →
      (∀ w ∈ Ws, m ((buf.drop w.1).take (w.2.1 - w.1)) =
          ((m buf).filter
            (fun sp => decide (w.1 ≤ sp.1) && decide (sp.2 ≤ w.2.1))).map
            (fun sp => (sp.1 - w.1, sp.2 - w.1))) →
      Ws.foldl
        (fun st w =>
          (ctx.ruleOrder (dedupNats
            ((w.2.2.map (fun aid => plan.anchorToRules.getD aid [])).flatten))).foldl
            (fun st ri =>
              match ctx.matchers ri with
              | some mm => emitSpans fileHash 0 w.1
                  ((buf.drop w.1).take (w.2.1 - w.1))
                  (mm ((buf.drop w.1).take (w.2.1 - w.1))) st
              | none => st)
            st)
        st
      = emitSpans fileHash 0 0 buf
          ((Ws.map (fun w => (m buf).filter
              (fun sp => decide (w.1 ≤ sp.1) && decide (sp.2 ≤ w.2.1)))).flatten)
          st := by
  intro Ws
  induction Ws with
  | nil => intro st _ _ _; rfl
  | cons w Ws ih =>
    intro st hbnd haids hloc
    have hw1 := hbnd w (List.mem_cons_self _ _)
    have hw2 := haids w (List.mem_cons_self _ _)
    have hw3 := hloc w (List.mem_cons_self _ _)
    have hrules : ctx.ruleOrder (dedupNats
        ((w.2.2.map (fun aid => plan.anchorToRules.getD aid [])).flatten))
        = [0] := by
      rw [hro]
      apply dedupNats_all_zero
      · cases hasl : w.2.2 with
        | nil => exact absurd hasl hw2.1
        | cons a rest =>
          have ha : plan.anchorToRules.getD a [] = [0] :=
            hat a (hw2.2 a (by rw [hasl]; exact List.mem_cons_self _ _))
          rw [List.map_cons, List.flatten_cons, ha]
          simp
      · intro x hx
        rcases List.mem_flatten.mp hx with ⟨l, hl, hxl⟩
        rcases List.mem_map.mp hl with ⟨aid, haidm, rfl⟩
        rw [hat aid (hw2.2 aid haidm)] at hxl
        simpa using hxl
    simp only [List.foldl_cons, List.map_cons, List.flatten_cons, hrules,
      List.foldl_nil, hm]
    rw [hw3]
    have hsps : ∀ sp ∈ (m buf).filter
        (fun sp => decide (w.1 ≤ sp.1) && decide (sp.2 ≤ w.2.1)),
        w.1 ≤ sp.1 ∧ sp.2 ≤ w.2.1 := by
      intro sp hsp
      have hc := (List.mem_filter.mp hsp).2
      simp only [Bool.and_eq_true, decide_eq_true_eq] at hc
      exact hc
    rw [emitSpans_shift hw1.1 hw1.2 _ st hsps]
    rw [emitSpans_append]
    exact ih _ (fun v hv => hbnd v (List.mem_cons_of_mem _ hv))
      (fun v hv => haids v (List.mem_cons_of_mem _ hv))
      (fun v hv => hloc v (List.mem_cons_of_mem _ hv))

/-- Two lists that are strictly sorted by span start and have the same
members are equal. -/
theorem eq_of_pairwise_lt_of_mem_iff :
    ∀ {l1 l2 : List (Nat × Nat)},
      l1.Pairwise (fun a b => a.1 < b.1) →
      l2.Pairwise (fun a b => a.1 < b.1) →
      (∀ x, x ∈ l1 ↔ x ∈ l2) → l1 = l2 := by
  intro l1
  induction l1 with
  | nil =>
    intro l2 _ _ hm
    cases l2 with
    | nil => rfl
    | cons y ys => exact absurd ((hm y).mpr (List.mem_cons_self _ _)) (by simp)
  | cons x xs ih =>
    intro l2 h1 h2 hm
    cases l2 with
    | nil => exact absurd ((hm x).mp (List.mem_cons_self _ _)) (by simp)
    | cons y ys =>
      rw [List.pairwise_cons] at h1 h2
      have hxy : x = y := by
        rcases List.mem_cons.mp ((hm x).mp (List.mem_cons_self _ _)) with h | h
        · exact h
        · rcases List.mem_cons.mp ((hm y).mpr (List.mem_cons_self _ _)) with h' | h'
          · exact h'.symm
          · have := h2.1 x h
            have := h1.1 y h'
            omega
      subst hxy
      congr 1
      refine ih h1.2 h2.2 ?_
      intro z
      constructor
      · intro hz
        rcases List.mem_cons.mp ((hm z).mp (List.mem_cons_of_mem _ hz)) with h | h
        · subst h; exact absurd hz (by
            intro hmem
            have := h1.1 z hmem
            omega)
        · exact h
      · intro hz
        rcases List.mem_cons.mp ((hm z).mpr (List.mem_cons_of_mem _ hz)) with h | h
        · subst h; exact absurd hz (by
            intro hmem
            have := h2.1 z hmem
            omega)
        · exact h

/-- C4 amended: for a single-rule plan whose every anchor row maps to rule
0 and the identity rule-set iteration order, the prefilter engine produces
exactly the naive whole-buffer engine's findings, provided (i) the precise
matcher's spans are nonempty, in bounds and strictly ordered by start, (ii)
matching is local to each computed window (the window slice yields exactly
the shifted global spans lying inside the window), and (iii) every global
match lies entirely inside some computed window — i.e. the extracted
anchors really are necessary literals and the window padding covers the
whole match.  Premise (iii) is exactly what `claim4_counterexample`
refutes for the unlimited-repetition rule: there a match starts more than
`WINDOW_BEFORE` bytes before its anchor, and the engines differ. -/
theorem claim4_amended_prefilter_completeness
    (ctx : ScanCtx) (plan : PrefilterPlan) (buf fileHash : Bytes)
    (m : Bytes → List (Nat × Nat))
    (hm : ctx.matchers 0 = some m)
    (hro : ∀ l, ctx.ruleOrder l = l)
    (hat : ∀ aid, aid < plan.anchors.length →
      plan.anchorToRules.getD aid [] = [0])
    (hbounds : ∀ sp ∈ m buf, sp.1 < sp.2 ∧ sp.2 ≤ buf.length)
    (hsorted : (m buf).Pairwise (fun a b => a.1 < b.1))
    (hlocal : ∀ w ∈ buildWindows plan.anchors buf.length
        (acFindIter plan.anchors buf),
        m ((buf.drop w.1).take (w.2.1 - w.1)) =
          ((m buf).filter
            (fun sp => decide (w.1 ≤ sp.1) && decide (sp.2 ≤ w.2.1))).map
            (fun sp => (sp.1 - w.1, sp.2 - w.1)))
    (hcover : ∀ sp ∈ m buf, ∃ w ∈ buildWindows plan.anchors buf.length
        (acFindIter plan.anchors buf), w.1 ≤ sp.1 ∧ sp.2 ≤ w.2.1) :
    scanBufferWithPrefilter ctx plan buf 0 fileHash =
      scanFileBytesNaive [some m] buf fileHash := by
  have hpos : ∀ h ∈ acFindIter plan.anchors buf, h.1 < buf.length :=
    fun h hh => acFindIter_pos_lt h hh
  have haid : ∀ h ∈ acFindIter plan.anchors buf, h.2 < plan.anchors.length :=
    fun h hh => acFindIterAux_aid_lt _ _ _ h hh
  have hWbnd := @buildWindows_bounds plan.anchors buf.length
    (acFindIter plan.anchors buf) hpos
  have hWaids := @buildWindows_aids plan.anchors buf.length
    (acFindIter plan.anchors buf) haid
  have hWpw : (buildWindows plan.anchors buf.length
      (acFindIter plan.anchors buf)).Pairwise (fun a b => a.2.1 < b.1) :=
    windows_chain_pairwise
      (@buildWindows_chain plan.anchors buf.length (acFindIter plan.anchors buf))
      (fun w hw => (hWbnd w hw).1)
  have hmain := c4_fold_eq ctx plan buf fileHash m hm hro hat
    (buildWindows plan.anchors buf.length (acFindIter plan.anchors buf))
    ([], []) hWbnd hWaids hlocal
  have hflat : ((buildWindows plan.anchors buf.length
      (acFindIter plan.anchors buf)).map
      (fun w => (m buf).filter
        (fun sp => decide (w.1 ≤ sp.1) && decide (sp.2 ≤ w.2.1)))).flatten
      = m buf := by
    apply eq_of_pairwise_lt_of_mem_iff
    · rw [List.pairwise_flatten]
      constructor
      · intro S hS
        rcases List.mem_map.mp hS with ⟨w, hw, rfl⟩
        exact List.Pairwise.sublist (List.filter_sublist _) hsorted
      · rw [List.pairwise_map]
        refine List.Pairwise.imp ?_ hWpw
        intro a b hab x hx y hy
        have hxm := List.mem_filter.mp hx
        have hym := List.mem_filter.mp hy
        have hx2 := (hbounds x hxm.1).1
        have hxc := hxm.2
        have hyc := hym.2
        simp only [Bool.and_eq_true, decide_eq_true_eq] at hxc hyc
        omega
    · exact hsorted
    · intro x
      constructor
      · intro hx
        rcases List.mem_flatten.mp hx with ⟨S, hS, hxS⟩
        rcases List.mem_map.mp hS with ⟨w, hw, rfl⟩
        exact (List.mem_filter.mp hxS).1
      · intro hx
        rcases hcover x hx with ⟨w, hw, hw1, hw2⟩
        refine List.mem_flatten.mpr ⟨_, List.mem_map.mpr ⟨w, hw, rfl⟩, ?_⟩
        refine List.mem_filter.mpr ⟨hx, ?_⟩
        simp only [Bool.and_eq_true, decide_eq_true_eq]
        exact ⟨hw1, hw2⟩
  have hnaive : scanFileBytesNaive [some m] buf fileHash =
      (emitSpans fileHash 0 0 buf (m buf) ([], [])).2 := by
    simp only [scanFileBytesNaive, List.foldl_cons, List.foldl_nil]
  rw [hnaive, ← hflat, ← hmain]
  rfl

/-- A plan for the witness: one literal rule, whose anchor is trivially a
necessary literal that covers the whole match. -/
def c4wPlan : PrefilterPlan := buildPrefilterPlan [asciiBytes "mytoken123456"]

def c4wMatcher : Bytes → List (Nat × Nat) :=
  literalMatcher (asciiBytes "mytoken123456")

def c4wCtx : ScanCtx :=
  { matchers := fun i => if i = 0 then some c4wMatcher else none,
    ruleOrder := id }

def c4wBuf : Bytes := asciiBytes "xxmytoken123456yy"

/-- Witness for the amended C4 theorem at a concrete literal rule. -/
theorem claim4_amended_witness :
    scanBufferWithPrefilter c4wCtx c4wPlan c4wBuf 0 (asciiBytes "f") =
      scanFileBytesNaive [some c4wMatcher] c4wBuf (asciiBytes "f") :=
  claim4_amended_prefilter_completeness c4wCtx c4wPlan c4wBuf (asciiBytes "f")
    c4wMatcher rfl (fun l => rfl) (by decide) (by decide) (by decide)
    (by decide) (by decide)

/-! ## C3 — chunk-boundary transparency -/

/-- Generic evaluation lemmas for the Aho-Corasick scan and the literal
matcher over buffers given by structure (too large for kernel
evaluation). -/
theorem head_notin_no_prefix {a : Nat} {l rest : Bytes} (hmem : a ∉ rest)
    (i : Nat) : ((a :: l).isPrefixOf (rest.drop i)) = false := by
  cases hd : rest.drop i with
  | nil => rfl
  | cons b t =>
    have hb : b ∈ rest :=
      List.mem_of_mem_drop (by rw [hd]; exact List.mem_cons_self _ _)
    have hab : (a == b) = false := by
      rw [beq_eq_false_iff_ne]
      intro he
      exact hmem (he ▸ hb)
    show ((a == b) && l.isPrefixOf t) = false
    rw [hab, Bool.false_and]

theorem bestAnchorAt_single_none {lit rest : Bytes}
    (h : lit.isPrefixOf rest = false) : bestAnchorAt [lit] rest = none := by
  unfold bestAnchorAt
  rw [show enumFrom 0 [lit] = [(0, lit)] from rfl, List.foldl_cons,
    List.foldl_nil]
  simp [h]

theorem bestAnchorAt_single_some {lit rest : Bytes}
    (h : lit.isPrefixOf rest = true) (hne : lit ≠ []) :
    bestAnchorAt [lit] rest = some (0, lit.length) := by
  unfold bestAnchorAt
  rw [show enumFrom 0 [lit] = [(0, lit)] from rfl, List.foldl_cons,
    List.foldl_nil]
  have hemp : lit.isEmpty = false := by
    rw [List.isEmpty_eq_false]
    exact hne
  simp [h, hemp]

theorem acFindIterAux_none (anchors : List Bytes) :
    ∀ (fuel : Nat) (rest : Bytes) (pos : Nat),
      (∀ i, bestAnchorAt anchors (rest.drop i) = none) →
      acFindIterAux anchors fuel rest pos = [] := by
  intro fuel
  induction fuel with
  | zero => intros; rfl
  | succ f ih =>
    intro rest pos h
    cases rest with
    | nil => rfl
    | cons x t =>
      have h0 : bestAnchorAt anchors (x :: t) = none := h 0
      have hred : acFindIterAux anchors (f + 1) (x :: t) pos =
          (match bestAnchorAt anchors (x :: t) with
           | some al => (pos, al.1) ::
               acFindIterAux anchors f ((x :: t).drop al.2) (pos + al.2)
           | none => acFindIterAux anchors f t (pos + 1)) := rfl
      rw [hred, h0]
      exact ih t (pos + 1) (fun i => h (i + 1))

theorem acFindIterAux_step_hit (anchors : List Bytes) (f : Nat) (rest : Bytes)
    (pos : Nat) (al : Nat × Nat) (hne : rest ≠ [])
    (hb : bestAnchorAt anchors rest = some al) :
    acFindIterAux anchors (f + 1) rest pos =
      (pos, al.1) :: acFindIterAux anchors f (rest.drop al.2) (pos + al.2) := by
  cases rest with
  | nil => exact absurd rfl hne
  | cons x t =>
    have hred : acFindIterAux anchors (f + 1) (x :: t) pos =
        (match bestAnchorAt anchors (x :: t) with
         | some al => (pos, al.1) ::
             acFindIterAux anchors f ((x :: t).drop al.2) (pos + al.2)
         | none => acFindIterAux anchors f t (pos + 1)) := rfl
    rw [hred, hb]

theorem literalMatcherAux_none (lit : Bytes) :
    ∀ (fuel : Nat) (rest : Bytes) (pos : Nat),
      (∀ i, (lit.isPrefixOf (rest.drop i) && !lit.isEmpty) = false) →
      literalMatcherAux lit fuel rest pos = [] := by
  intro fuel
  induction fuel with
  | zero => intros; rfl
  | succ f ih =>
    intro rest pos h
    cases rest with
    | nil => rfl
    | cons x t =>
      have h0 : (lit.isPrefixOf (x :: t) && !lit.isEmpty) = false := h 0
      have hred : literalMatcherAux lit (f + 1) (x :: t) pos =
          (if (lit.isPrefixOf (x :: t) && !lit.isEmpty) = true then
            (pos, pos + lit.length) ::
              literalMatcherAux lit f ((x :: t).drop lit.length)
                (pos + lit.length)
          else literalMatcherAux lit f t (pos + 1)) := rfl
      rw [hred, if_neg (by rw [h0]; exact Bool.false_ne_true)]
      exact ih t (pos + 1) (fun i => h (i + 1))

theorem literalMatcherAux_step_hit (lit : Bytes) (f : Nat) (rest : Bytes)
    (pos : Nat) (hne : rest ≠ [])
    (h : (lit.isPrefixOf rest && !lit.isEmpty) = true) :
    literalMatcherAux lit (f + 1) rest pos =
      (pos, pos + lit.length) ::
        literalMatcherAux lit f (rest.drop lit.length) (pos + lit.length) := by
  cases rest with
  | nil => exact absurd rfl hne
  | cons x t =>
    have hred : literalMatcherAux lit (f + 1) (x :: t) pos =
        (if (lit.isPrefixOf (x :: t) && !lit.isEmpty) = true then
          (pos, pos + lit.length) ::
            literalMatcherAux lit f ((x :: t).drop lit.length)
              (pos + lit.length)
        else literalMatcherAux lit f t (pos + 1)) := rfl
    rw [hred, if_pos h]

/-- The C3 counterexample rule: the 13-byte literal `mytoken123456` (its
longest possible match is 13 ≤ 512 bytes). -/
def c3Lit : Bytes := asciiBytes "mytoken123456"

/-- 2035 printable bytes then 6145 unprintable bytes. -/
def c3Junk : Bytes := List.replicate 2035 65 ++ List.replicate 6145 1

/-- The 8193-byte counterexample file: the secret at offset 0, then the
junk.  Printable bytes: 13 + 2035 = 2048; 4·2048 = 8192 < 8193, so the
whole buffer is "binary", but its first 8192 bytes (printable 2048 of
8192) are not. -/
def c3File : Bytes := c3Lit ++ c3Junk

def c3Plan : PrefilterPlan := buildPrefilterPlan [asciiBytes "mytoken123456"]

def c3Ctx : ScanCtx :=
  { matchers := fun i => if i = 0 then some (literalMatcher c3Lit) else none,
    ruleOrder := id }

def c3Finding : Finding :=
  { fileHash := asciiBytes "f", value := asciiBytes "mytoken123456",
    startOffset := 0 }

theorem c3Lit_length : c3Lit.length = 13 := rfl

theorem c3Lit_cons : c3Lit = 109 :: asciiBytes "ytoken123456" := rfl

theorem c3File_length : c3File.length = 8193 := by
  unfold c3File c3Junk
  rw [List.length_append, List.length_append, List.length_replicate,
    List.length_replicate, c3Lit_length]

theorem c3_no109 : (109 : Nat) ∉ c3Junk := by
  unfold c3Junk
  intro h
  rcases List.mem_append.mp h with h1 | h1 <;>
    (rw [List.mem_replicate] at h1; omega)

theorem c3File_no_nul : c3File.any (· == 0) = false := by
  rw [List.any_eq_false]
  intro x hx hbeq
  have hx0 : x = 0 := by simpa using hbeq
  subst hx0
  unfold c3File c3Junk at hx
  rcases List.mem_append.mp hx with h | h
  · exact absurd h (by decide)
  · rcases List.mem_append.mp h with h2 | h2 <;>
      (rw [List.mem_replicate] at h2; omega)

theorem countP_replicate (p : Nat → Bool) (n a : Nat) :
    (List.replicate n a).countP p = if p a then n else 0 := by
  induction n with
  | zero => simp
  | succ n ih =>
    rw [List.replicate_succ, List.countP_cons, ih]
    split <;> omega

theorem c3File_countP : c3File.countP printableByte = 2048 := by
  unfold c3File c3Junk
  rw [List.countP_append, List.countP_append,
    show c3Lit.countP printableByte = 13 from by decide,
    countP_replicate, countP_replicate, if_pos (by decide),
    if_neg (by decide)]

theorem c3File_ne_nil : c3File ≠ [] := by
  intro h
  have := congrArg List.length h
  rw [c3File_length] at this
  simp at this

/-- The whole 8193-byte buffer is sniffed as binary. -/
theorem c3_whole_binary : isProbablyBinary c3File = true := by
  unfold isProbablyBinary
  rw [if_neg (by rw [List.isEmpty_eq_false.mpr c3File_ne_nil]; exact Bool.false_ne_true),
    if_neg (by rw [c3File_no_nul]; exact Bool.false_ne_true),
    c3File_countP, c3File_length]
  decide

theorem c3_decomp :
    c3File = (c3Lit ++ (List.replicate 2035 65 ++ List.replicate 6144 1))
      ++ [1] := by
  unfold c3File c3Junk
  rw [show List.replicate 6145 (1 : Nat) = List.replicate 6144 1 ++ [1] from
      List.replicate_succ' 6144 1,
    List.append_assoc, List.append_assoc]

theorem c3_head_take :
    c3File.take 8192 =
      c3Lit ++ (List.replicate 2035 65 ++ List.replicate 6144 1) := by
  rw [c3_decomp]
  have hlen :
      (c3Lit ++ (List.replicate 2035 65 ++ List.replicate 6144 1)).length
        = 8192 := by
    rw [List.length_append, List.length_append, List.length_replicate,
      List.length_replicate, c3Lit_length]
  rw [show (8192 : Nat) =
      (c3Lit ++ (List.replicate 2035 65 ++ List.replicate 6144 1)).length
      from hlen.symm,
    List.take_left]

/-- The first 8 KiB of the same file are not sniffed as binary:
4·2048 = 8192 is not < 8192. -/
theorem c3_head_not_binary : isProbablyBinary (c3File.take 8192) = false := by
  rw [c3_head_take]
  unfold isProbablyBinary
  have hne : (c3Lit ++ (List.replicate 2035 65 ++ List.replicate 6144 1))
      ≠ [] := by
    intro h
    have := congrArg List.length h
    rw [List.length_append, List.length_append, List.length_replicate,
      List.length_replicate, c3Lit_length] at this
    simp at this
  have hnul : (c3Lit ++ (List.replicate 2035 65 ++
      List.replicate 6144 1)).any (· == 0) = false := by
    rw [List.any_eq_false]
    intro x hx hbeq
    have hx0 : x = 0 := by simpa using hbeq
    subst hx0
    rcases List.mem_append.mp hx with h | h
    · exact absurd h (by decide)
    · rcases List.mem_append.mp h with h2 | h2 <;>
        (rw [List.mem_replicate] at h2; omega)
  rw [if_neg (by rw [List.isEmpty_eq_false.mpr hne]; exact Bool.false_ne_true),
    if_neg (by rw [hnul]; exact Bool.false_ne_true),
    List.countP_append, List.countP_append,
    show c3Lit.countP printableByte = 13 from by decide,
    countP_replicate, countP_replicate, if_pos (by decide),
    if_neg (by decide),
    List.length_append, List.length_append, List.length_replicate,
    List.length_replicate, c3Lit_length]
  decide

/-- The AC automaton of the single anchor hits once, at position 0. -/
theorem c3_hits : acFindIter [c3Lit] c3File = [(0, 0)] := by
  have hpre : c3Lit.isPrefixOf c3File = true :=
    List.isPrefixOf_iff_prefix.mpr (by unfold c3File; exact List.prefix_append _ _)
  have hb : bestAnchorAt [c3Lit] c3File = some (0, 13) := by
    have h := bestAnchorAt_single_some hpre (by decide)
    rw [c3Lit_length] at h
    exact h
  unfold acFindIter
  rw [c3File_length, show (8193 : Nat) = 8192 + 1 from rfl,
    acFindIterAux_step_hit [c3Lit] 8192 c3File 0 (0, 13) c3File_ne_nil hb,
    show c3File.drop (0, (13 : Nat)).2 = c3Junk from by
      show c3File.drop 13 = c3Junk
      unfold c3File
      rw [← c3Lit_length]
      exact List.drop_left _ _,
    acFindIterAux_none [c3Lit] 8192 c3Junk (0 + (0, (13 : Nat)).2)
      (fun i => bestAnchorAt_single_none (by
        rw [c3Lit_cons]
        exact head_notin_no_prefix c3_no109 i))]

theorem c3_windows : buildWindows [c3Lit] 8193 [(0, 0)] = [(0, 1024, [0])] := by
  decide

theorem c3Plan_anchors : c3Plan.anchors = [c3Lit] := by decide

/-- The window slice `[0, 1024)` of the counterexample file. -/
theorem c3_slice :
    (c3File.drop 0).take (1024 - 0) = c3Lit ++ List.replicate 1011 65 := by
  rw [List.drop_zero, Nat.sub_zero]
  unfold c3File c3Junk
  rw [List.take_append_eq_append_take,
    List.take_of_length_le (by rw [c3Lit_length]; omega), c3Lit_length,
    List.take_append_eq_append_take, List.length_replicate,
    show (1024 - 13 : Nat) = 1011 from rfl,
    show (1011 - 2035 : Nat) = 0 from rfl,
    List.take_zero, List.append_nil, List.take_replicate,
    show min 1011 2035 = 1011 from rfl]

/-- The literal matcher on that window finds exactly the span `(0, 13)`. -/
theorem c3_m_window :
    literalMatcher c3Lit (c3Lit ++ List.replicate 1011 65) = [(0, 13)] := by
  unfold literalMatcher
  have hpre : c3Lit.isPrefixOf (c3Lit ++ List.replicate 1011 65) = true :=
    List.isPrefixOf_iff_prefix.mpr (List.prefix_append _ _)
  rw [List.length_append, c3Lit_length, List.length_replicate,
    show (13 + 1011 : Nat) = 1023 + 1 from rfl,
    literalMatcherAux_step_hit c3Lit 1023 _ 0 (by
      intro h
      have hl := congrArg List.length h
      rw [List.length_append, c3Lit_length, List.length_replicate,
        List.length_nil] at hl
      omega) (by
      rw [hpre]
      decide),
    List.drop_left c3Lit (List.replicate 1011 65),
    literalMatcherAux_none c3Lit 1023 (List.replicate 1011 65) (0 + c3Lit.length)
      (fun i => by
        rw [c3Lit_cons,
          head_notin_no_prefix (show (109 : Nat) ∉ List.replicate 1011 65 by
            intro h; rw [List.mem_replicate] at h; omega) i,
          Bool.false_and]),
    c3Lit_length]

/-- The prefilter buffer scan of the counterexample file finds the secret
at offset 0 (inside the single window `[0, 1024)`). -/
theorem c3_scanBuffer :
    scanBufferWithPrefilter c3Ctx c3Plan c3File 0 (asciiBytes "f")
      = [c3Finding] := by
  simp only [scanBufferWithPrefilter]
  rw [c3Plan_anchors, c3File_length, c3_hits, c3_windows]
  simp only [List.foldl_cons, List.foldl_nil]
  rw [show c3Ctx.ruleOrder (dedupNats ((List.map
      (fun aid => c3Plan.anchorToRules.getD aid []) [0]).flatten)) = [0] from
    by decide]
  simp only [List.foldl_cons, List.foldl_nil]
  rw [c3_slice, show c3Ctx.matchers 0 = some (literalMatcher c3Lit) from rfl]
  simp only [c3_m_window]
  decide

/-- Once the chunk loop aborts, the remaining schedule is ignored. -/
theorem scanChunksAux_aborted (ctx : ScanCtx) (plan : PrefilterPlan)
    (file fileHash : Bytes) :
    ∀ (sched : List Nat) (st : ChunkState), st.aborted = true →
      scanChunksAux ctx plan file fileHash sched st = st := by
  intro sched
  induction sched with
  | nil => intros; rfl
  | cons n rest ih =>
    intro st h
    unfold scanChunksAux
    rw [if_pos h]

/-- Once the file is fully consumed, every further read returns 0 bytes and
the loop stops. -/
theorem scanChunksAux_eof (ctx : ScanCtx) (plan : PrefilterPlan)
    (file fileHash : Bytes) :
    ∀ (sched : List Nat) (st : ChunkState), st.fileOffset = file.length →
      scanChunksAux ctx plan file fileHash sched st = st := by
  intro sched
  induction sched with
  | nil => intros; rfl
  | cons n rest ih =>
    intro st h
    unfold scanChunksAux
    by_cases hab : st.aborted = true
    · rw [if_pos hab]
    · rw [if_neg hab, if_pos (show readLen file st.fileOffset n = 0 from by
        unfold readLen
        rw [h, Nat.sub_self]
        exact Nat.min_zero _)]

theorem c3_readLen : readLen c3File 0 CHUNK_SIZE = 8193 := by
  unfold readLen CHUNK_SIZE
  rw [c3File_length]
  decide

theorem c3_chunkOf : chunkOf c3File [] 0 8193 = c3File := by
  unfold chunkOf
  rw [List.drop_zero, List.nil_append]
  exact List.take_of_length_le (le_of_eq c3File_length)

theorem c3_sched : autoSchedule c3File.length = [CHUNK_SIZE] := by
  rw [c3File_length]
  unfold autoSchedule CHUNK_SIZE
  decide

/-- The chunked path on the counterexample file: the whole file fits into
one read, the first-chunk 8 KiB sniff passes, and the secret is found. -/
theorem c3_chunked :
    scanFileBytesChunkedPrefilter c3Ctx c3Plan c3File (asciiBytes "f")
      (autoSchedule c3File.length) = [c3Finding] := by
  rw [c3_sched]
  have haux : scanChunksAux c3Ctx c3Plan c3File (asciiBytes "f") [CHUNK_SIZE]
      { aborted := false, seen := [], found := [], carry := [],
        fileOffset := 0 }
      = chunkStep c3Ctx c3Plan c3File (asciiBytes "f")
          { aborted := false, seen := [], found := [], carry := [],
            fileOffset := 0 }
          8193 := by
    simp only [scanChunksAux, c3_readLen, c3_chunkOf, c3File_length,
      show (min 8193 8192 : Nat) = 8192 from by decide, c3_head_not_binary]
    simp
  have hstep : chunkStep c3Ctx c3Plan c3File (asciiBytes "f")
      { aborted := false, seen := [], found := [], carry := [],
        fileOffset := 0 } 8193
      = { aborted := false, seen := [asciiBytes "mytoken123456"],
          found := [c3Finding], carry := (c3File.drop 7681).take 512,
          fileOffset := 8193 } := by
    simp [chunkStep, CHUNK_OVERLAP, c3_chunkOf, c3_scanBuffer, c3Finding]
  unfold scanFileBytesChunkedPrefilter
  rw [haux, hstep]
  simp

/-- C3 counterexample: the two byte-engine paths disagree on an 8193-byte
file even though the rule is a 13-byte literal (longest match 13 ≤ 512
bytes, far below the 512-byte chunk overlap).  The whole-buffer path sniffs
the entire buffer (printable ratio 2048/8193 < 0.25 ⇒ "binary") and emits
nothing; the chunked path sniffs only the first 8 KiB (ratio 2048/8192 =
0.25, not below) and emits the secret at offset 0. -/
theorem claim3_counterexample :
    scanFileBytesPrefilter c3Ctx c3Plan c3File (asciiBytes "f") = [] ∧
    scanFileBytesChunkedPrefilter c3Ctx c3Plan c3File (asciiBytes "f")
      (autoSchedule c3File.length) = [c3Finding] ∧
    scanFileBytesPrefilter c3Ctx c3Plan c3File (asciiBytes "f") ≠
      scanFileBytesChunkedPrefilter c3Ctx c3Plan c3File (asciiBytes "f")
        (autoSchedule c3File.length) := by
  have h1 : scanFileBytesPrefilter c3Ctx c3Plan c3File (asciiBytes "f")
      = [] := by
    unfold scanFileBytesPrefilter
    rw [if_pos c3_whole_binary]
  refine ⟨h1, c3_chunked, ?_⟩
  rw [h1, c3_chunked]
  decide

/-- Folding the cross-chunk merge over findings with pairwise-distinct
values, none already seen, appends them unchanged. -/
theorem mergeFold_nodup :
    ∀ (l : List Finding) (seen : List Bytes) (acc : List Finding),
      (l.map Finding.value).Nodup →
      (∀ f ∈ l, f.value ∉ seen) →
      (l.foldl
        (fun (p : List Bytes × List Finding) f =>
          if f.value ∈ p.1 then p else (f.value :: p.1, p.2 ++ [f]))
        (seen, acc)).2 = acc ++ l := by
  intro l
  induction l with
  | nil => intro seen acc _ _; simp
  | cons f l ih =>
    intro seen acc hnd hns
    simp only [List.foldl_cons]
    rw [if_neg (hns f (List.mem_cons_self _ _))]
    rw [List.map_cons, List.nodup_cons] at hnd
    rw [ih (f.value :: seen) (acc ++ [f]) hnd.2 ?hns2]
    · simp
    case hns2 =>
      intro g hg hmem
      rcases List.mem_cons.mp hmem with h | h
      · exact hnd.1 (h ▸ List.mem_map.mpr ⟨g, hg, rfl⟩)
      · exact hns g (List.mem_cons_of_mem _ hg) h

/-- C3 amended: for every file that one read delivers in full (its length
is at most `CHUNK_SIZE`), if the binary sniffer gives the same verdict on
the file's first 8 KiB as on the whole file, the chunked path emits
exactly the whole-buffer path's findings.  The original claim fails only
through the sniffers' different samples (`claim3_counterexample`); the
chunk loop itself is transparent here because the per-buffer findings are
dedup-by-value pairwise distinct, so the cross-chunk merge appends them
unchanged. -/
theorem claim3_amended_single_chunk (ctx : ScanCtx) (plan : PrefilterPlan)
    (file fileHash : Bytes)
    (hlen : file.length ≤ CHUNK_SIZE)
    (hsniff : isProbablyBinary (file.take (min file.length 8192)) =
      isProbablyBinary file) :
    scanFileBytesChunkedPrefilter ctx plan file fileHash
      (autoSchedule file.length)
      = scanFileBytesPrefilter ctx plan file fileHash := by
  by_cases hnil : file = []
  · subst hnil
    rfl
  · have hlen0 : 0 < file.length := List.length_pos.mpr hnil
    have hr : readLen file 0 CHUNK_SIZE = file.length := by
      unfold readLen
      rw [Nat.min_self, Nat.sub_zero]
      exact Nat.min_eq_right hlen
    have hchunk : chunkOf file [] 0 file.length = file := by
      unfold chunkOf
      rw [List.drop_zero, List.nil_append]
      exact List.take_length file
    have hstep1 : ∀ (restS : List Nat),
        scanChunksAux ctx plan file fileHash (CHUNK_SIZE :: restS)
          { aborted := false, seen := [], found := [], carry := [],
            fileOffset := 0 }
        = (if isProbablyBinary (file.take (min file.length 8192)) = true then
            scanChunksAux ctx plan file fileHash restS
              { aborted := true, seen := [], found := [], carry := [],
                fileOffset := 0 }
          else
            scanChunksAux ctx plan file fileHash restS
              (chunkStep ctx plan file fileHash
                { aborted := false, seen := [], found := [], carry := [],
                  fileOffset := 0 }
                file.length)) := by
      intro restS
      have hred : scanChunksAux ctx plan file fileHash (CHUNK_SIZE :: restS)
          { aborted := false, seen := [], found := [], carry := [],
            fileOffset := 0 }
          = (if readLen file 0 CHUNK_SIZE = 0 then
              ({ aborted := false, seen := [], found := [], carry := [],
                 fileOffset := 0 } : ChunkState)
            else if isProbablyBinary
                ((chunkOf file [] 0 (readLen file 0 CHUNK_SIZE)).take
                  (min (chunkOf file [] 0
                    (readLen file 0 CHUNK_SIZE)).length 8192)) = true then
              scanChunksAux ctx plan file fileHash restS
                { aborted := true, seen := [], found := [], carry := [],
                  fileOffset := 0 }
            else
              scanChunksAux ctx plan file fileHash restS
                (chunkStep ctx plan file fileHash
                  { aborted := false, seen := [], found := [], carry := [],
                    fileOffset := 0 }
                  (readLen file 0 CHUNK_SIZE))) := rfl
      rw [hred, hr, hchunk]
      rw [if_neg (show ¬(file.length = 0) from by omega)]
    unfold scanFileBytesChunkedPrefilter autoSchedule
    rw [List.replicate_succ]
    rw [hstep1, hsniff]
    by_cases hbin : isProbablyBinary file = true
    · rw [if_pos hbin,
        scanChunksAux_aborted ctx plan file fileHash
          (List.replicate (file.length / CHUNK_SIZE) CHUNK_SIZE)
          { aborted := true, seen := [], found := [], carry := [],
            fileOffset := 0 } rfl]
      unfold scanFileBytesPrefilter
      rw [if_pos hbin]
      simp
    · have hbin' : isProbablyBinary file = false := by
        cases h : isProbablyBinary file
        · rfl
        · exact absurd h hbin
      have hnb : ¬(isProbablyBinary file = true) := by
        rw [hbin']
        exact Bool.false_ne_true
      rw [if_neg hnb]
      have hoff : (chunkStep ctx plan file fileHash
          { aborted := false, seen := [], found := [], carry := [],
            fileOffset := 0 } file.length).fileOffset = file.length := by
        simp [chunkStep]
      rw [scanChunksAux_eof ctx plan file fileHash
        (List.replicate (file.length / CHUNK_SIZE) CHUNK_SIZE)
        (chunkStep ctx plan file fileHash
          { aborted := false, seen := [], found := [], carry := [],
            fileOffset := 0 }
          file.length) hoff]
      have hab : ¬((chunkStep ctx plan file fileHash
          { aborted := false, seen := [], found := [], carry := [],
            fileOffset := 0 } file.length).aborted = true) := by
        simp [chunkStep]
      rw [if_neg hab]
      have hfound : (chunkStep ctx plan file fileHash
          { aborted := false, seen := [], found := [], carry := [],
            fileOffset := 0 } file.length).found
          = scanBufferWithPrefilter ctx plan file 0 fileHash := by
        simp only [chunkStep]
        rw [hchunk, List.length_nil, Nat.sub_zero]
        rw [mergeFold_nodup (scanBufferWithPrefilter ctx plan file 0 fileHash)
          [] [] (scanBuffer_emitInv ctx plan file 0 fileHash).1
          (fun g _ hmem => List.not_mem_nil _ hmem)]
        simp
      rw [hfound]
      unfold scanFileBytesPrefilter
      rw [if_neg (by rw [hbin']; exact Bool.false_ne_true)]

def c3wFile : Bytes := asciiBytes "ab mytoken123456 cd"

/-- Witness for the amended C3 theorem at a concrete 19-byte file. -/
theorem claim3_amended_witness :
    scanFileBytesChunkedPrefilter c3Ctx c3Plan c3wFile (asciiBytes "g")
      (autoSchedule c3wFile.length)
      = scanFileBytesPrefilter c3Ctx c3Plan c3wFile (asciiBytes "g") :=
  claim3_amended_single_chunk c3Ctx c3Plan c3wFile (asciiBytes "g")
    (by decide) (by decide)

/-! ## C6 — binary skip -/

theorem cons_isPrefixOf_cons_ne {a b : Nat} {l t : Bytes} (hab : a ≠ b) :
    ((a :: l).isPrefixOf (b :: t)) = false := by
  show ((a == b) && l.isPrefixOf t) = false
  rw [beq_eq_false_iff_ne.mpr hab, Bool.false_and]

/-- Inside the replicated head of a buffer, a literal starting with a
different byte is never a prefix. -/
theorem no_prefix_in_replicate_prefix {a c : Nat} {l R : Bytes} {m : Nat}
    (hac : a ≠ c) : ∀ i, i < m →
    ((a :: l).isPrefixOf ((List.replicate m c ++ R).drop i)) = false := by
  intro i him
  rw [List.drop_append_eq_append_drop, List.drop_replicate,
    List.length_replicate]
  have h1 : m - i = (m - i - 1) + 1 := by omega
  rw [h1, List.replicate_succ, List.cons_append]
  exact cons_isPrefixOf_cons_ne hac

/-- Skipping `k` hitless positions of the AC scan. -/
theorem acFindIterAux_skip (anchors : List Bytes) :
    ∀ (k f : Nat) (rest : Bytes) (pos : Nat),
      k ≤ rest.length →
      (∀ i, i < k → bestAnchorAt anchors (rest.drop i) = none) →
      acFindIterAux anchors (k + f) rest pos =
        acFindIterAux anchors f (rest.drop k) (pos + k) := by
  intro k
  induction k with
  | zero =>
    intro f rest pos _ _
    rw [Nat.zero_add, List.drop_zero, Nat.add_zero]
  | succ k ih =>
    intro f rest pos hkr hnone
    cases rest with
    | nil => simp at hkr
    | cons x t =>
      have h0 : bestAnchorAt anchors (x :: t) = none := hnone 0 (by omega)
      have hred : acFindIterAux anchors (k + f + 1) (x :: t) pos =
          (match bestAnchorAt anchors (x :: t) with
           | some al => (pos, al.1) ::
               acFindIterAux anchors (k + f) ((x :: t).drop al.2) (pos + al.2)
           | none => acFindIterAux anchors (k + f) t (pos + 1)) := rfl
      rw [show k + 1 + f = k + f + 1 from by omega, hred, h0]
      show acFindIterAux anchors (k + f) t (pos + 1) =
        acFindIterAux anchors f ((x :: t).drop (k + 1)) (pos + (k + 1))
      rw [ih f t (pos + 1) (by simp only [List.length_cons] at hkr; omega)
        (fun i hi => hnone (i + 1) (by omega))]
      rw [show pos + 1 + k = pos + (k + 1) from by omega]
      rfl

/-- Skipping `k` matchless positions of the literal matcher. -/
theorem literalMatcherAux_skip (lit : Bytes) :
    ∀ (k f : Nat) (rest : Bytes) (pos : Nat),
      k ≤ rest.length →
      (∀ i, i < k → (lit.isPrefixOf (rest.drop i) && !lit.isEmpty) = false) →
      literalMatcherAux lit (k + f) rest pos =
        literalMatcherAux lit f (rest.drop k) (pos + k) := by
  intro k
  induction k with
  | zero =>
    intro f rest pos _ _
    rw [Nat.zero_add, List.drop_zero, Nat.add_zero]
  | succ k ih =>
    intro f rest pos hkr hnone
    cases rest with
    | nil => simp at hkr
    | cons x t =>
      have h0 : (lit.isPrefixOf (x :: t) && !lit.isEmpty) = false := hnone 0 (by omega)
      have hred : literalMatcherAux lit (k + f + 1) (x :: t) pos =
          (if (lit.isPrefixOf (x :: t) && !lit.isEmpty) = true then
            (pos, pos + lit.length) ::
              literalMatcherAux lit (k + f) ((x :: t).drop lit.length)
                (pos + lit.length)
          else literalMatcherAux lit (k + f) t (pos + 1)) := rfl
      rw [show k + 1 + f = k + f + 1 from by omega, hred,
        if_neg (by rw [h0]; exact Bool.false_ne_true)]
      rw [ih f t (pos + 1) (by simp only [List.length_cons] at hkr; omega)
        (fun i hi => hnone (i + 1) (by omega))]
      rw [show pos + 1 + k = pos + (k + 1) from by omega]
      rfl

/-- The C6 counterexample file: 8 KiB of unprintable bytes, 2800 printable
bytes, then the 13-byte secret.  Its first 8 KiB are sniffed binary
(printable ratio 0 < 0.25), yet the whole 11005-byte buffer is not
(4·2813 = 11252 ≥ 11005). -/
def c6File : Bytes :=
  List.replicate 8192 1 ++ (List.replicate 2800 65 ++ c3Lit)

def c6Finding : Finding :=
  { fileHash := asciiBytes "f", value := asciiBytes "mytoken123456",
    startOffset := 10992 }

theorem c6File_length : c6File.length = 11005 := by
  unfold c6File
  rw [List.length_append, List.length_append, List.length_replicate,
    List.length_replicate, c3Lit_length]

theorem c6_head_take : c6File.take 8192 = List.replicate 8192 1 := by
  unfold c6File
  rw [List.take_append_eq_append_take, List.take_replicate,
    List.length_replicate, Nat.sub_self, List.take_zero, List.append_nil,
    Nat.min_self]

/-- The first 8 KiB of the C6 file meet the binary condition. -/
theorem c6_head_binary : isProbablyBinary (c6File.take 8192) = true := by
  rw [c6_head_take]
  unfold isProbablyBinary
  rw [if_neg (by
      rw [List.isEmpty_eq_false.mpr (by
        intro h
        have := congrArg List.length h
        rw [List.length_replicate, List.length_nil] at this
        omega)]
      exact Bool.false_ne_true),
    if_neg (by
      rw [show (List.replicate 8192 (1 : Nat)).any (· == 0) = false from by
        rw [List.any_eq_false]
        intro x hx hbeq
        rw [List.mem_replicate] at hx
        have : x = 0 := by simpa using hbeq
        omega]
      exact Bool.false_ne_true),
    countP_replicate, if_neg (by decide), List.length_replicate]
  decide

theorem c6File_no_nul : c6File.any (· == 0) = false := by
  rw [List.any_eq_false]
  intro x hx hbeq
  have hx0 : x = 0 := by simpa using hbeq
  subst hx0
  unfold c6File at hx
  rcases List.mem_append.mp hx with h | h
  · rw [List.mem_replicate] at h; omega
  · rcases List.mem_append.mp h with h2 | h2
    · rw [List.mem_replicate] at h2; omega
    · exact absurd h2 (by decide)

theorem c6File_countP : c6File.countP printableByte = 2813 := by
  unfold c6File
  rw [List.countP_append, List.countP_append, countP_replicate,
    countP_replicate, if_neg (by decide), if_pos (by decide),
    show c3Lit.countP printableByte = 13 from by decide]

/-- The whole C6 file does not meet the binary condition. -/
theorem c6_whole_not_binary : isProbablyBinary c6File = false := by
  unfold isProbablyBinary
  rw [if_neg (by
      rw [List.isEmpty_eq_false.mpr (by
        intro h
        have := congrArg List.length h
        rw [c6File_length, List.length_nil] at this
        omega)]
      exact Bool.false_ne_true),
    if_neg (by rw [c6File_no_nul]; exact Bool.false_ne_true),
    c6File_countP, c6File_length]
  decide

/-- The AC automaton hits once, at position 10992, on the C6 file. -/
theorem c6_hits : acFindIter [c3Lit] c6File = [(10992, 0)] := by
  unfold acFindIter
  rw [c6File_length, show (11005 : Nat) = 8192 + 2813 from rfl,
    acFindIterAux_skip [c3Lit] 8192 2813 c6File 0
      (by rw [c6File_length]; omega)
      (fun i hi => bestAnchorAt_single_none (by
        rw [c3Lit_cons]
        unfold c6File
        exact no_prefix_in_replicate_prefix (by omega) i hi)),
    show c6File.drop 8192 = List.replicate 2800 65 ++ c3Lit from by
      unfold c6File
      rw [List.drop_append_eq_append_drop, List.drop_replicate,
        List.length_replicate, Nat.sub_self, List.replicate_zero,
        List.nil_append, List.drop_zero],
    show (2813 : Nat) = 2800 + 13 from rfl,
    acFindIterAux_skip [c3Lit] 2800 13 (List.replicate 2800 65 ++ c3Lit)
      (0 + 8192)
      (by rw [List.length_append, List.length_replicate, c3Lit_length]; omega)
      (fun i hi => bestAnchorAt_single_none (by
        rw [c3Lit_cons]
        exact no_prefix_in_replicate_prefix (by omega) i hi)),
    show (List.replicate 2800 (65 : Nat) ++ c3Lit).drop 2800 = c3Lit from by
      rw [List.drop_append_eq_append_drop, List.drop_replicate,
        List.length_replicate, Nat.sub_self, List.replicate_zero,
        List.nil_append, List.drop_zero],
    show (13 : Nat) = 12 + 1 from rfl,
    acFindIterAux_step_hit [c3Lit] 12 c3Lit (0 + 8192 + 2800) (0, 13)
      (by decide)
      (by
        have h := bestAnchorAt_single_some
          (List.isPrefixOf_iff_prefix.mpr (List.prefix_refl c3Lit))
          (show c3Lit ≠ [] from by decide)
        rw [c3Lit_length] at h
        exact h),
    show c3Lit.drop (0, (13 : Nat)).2 = ([] : Bytes) from by
      show c3Lit.drop 13 = []
      rw [← c3Lit_length]
      exact List.drop_length _]
  rfl

theorem c6_windows :
    buildWindows [c3Lit] 11005 [(10992, 0)] = [(10864, 11005, [0])] := by
  decide

/-- The window slice `[10864, 11005)` of the C6 file. -/
theorem c6_slice :
    (c6File.drop 10864).take (11005 - 10864) =
      List.replicate 128 65 ++ c3Lit := by
  unfold c6File
  rw [List.drop_append_eq_append_drop, List.drop_replicate,
    List.length_replicate, show (8192 - 10864 : Nat) = 0 from rfl,
    List.replicate_zero, List.nil_append,
    List.drop_append_eq_append_drop, List.drop_replicate,
    List.length_replicate, show (10864 - 8192 : Nat) = 2672 from rfl,
    show (2800 - 2672 : Nat) = 128 from rfl,
    show (2672 - 2800 : Nat) = 0 from rfl, List.drop_zero]
  exact List.take_of_length_le (by
    rw [List.length_append, List.length_replicate, c3Lit_length])

/-- The literal matcher on that slice finds the span `(128, 141)`. -/
theorem c6_m_window :
    literalMatcher c3Lit (List.replicate 128 65 ++ c3Lit) = [(128, 141)] := by
  unfold literalMatcher
  rw [List.length_append, List.length_replicate, c3Lit_length,
    show (128 + 13 : Nat) = 128 + 13 from rfl,
    literalMatcherAux_skip c3Lit 128 13 (List.replicate 128 65 ++ c3Lit) 0
      (by rw [List.length_append, List.length_replicate, c3Lit_length]; omega)
      (fun i hi => by
        rw [c3Lit_cons,
          no_prefix_in_replicate_prefix (show (109 : Nat) ≠ 65 from by omega)
            i hi,
          Bool.false_and]),
    show (List.replicate 128 (65 : Nat) ++ c3Lit).drop 128 = c3Lit from by
      rw [List.drop_append_eq_append_drop, List.drop_replicate,
        List.length_replicate, Nat.sub_self, List.replicate_zero,
        List.nil_append, List.drop_zero],
    show (13 : Nat) = 12 + 1 from rfl,
    literalMatcherAux_step_hit c3Lit 12 c3Lit (0 + 128) (by decide)
      (by
        rw [List.isPrefixOf_iff_prefix.mpr (List.prefix_refl c3Lit)]
        decide),
    show c3Lit.drop c3Lit.length = ([] : Bytes) from List.drop_length _,
    c3Lit_length]
  rfl

/-- The prefilter buffer scan of the C6 file finds the secret at 10992. -/
theorem c6_scanBuffer :
    scanBufferWithPrefilter c3Ctx c3Plan c6File 0 (asciiBytes "f")
      = [c6Finding] := by
  simp only [scanBufferWithPrefilter]
  rw [c3Plan_anchors, c6File_length, c6_hits, c6_windows]
  simp only [List.foldl_cons, List.foldl_nil]
  rw [show c3Ctx.ruleOrder (dedupNats ((List.map
      (fun aid => c3Plan.anchorToRules.getD aid []) [0]).flatten)) = [0] from
    by decide]
  simp only [List.foldl_cons, List.foldl_nil]
  rw [c6_slice, show c3Ctx.matchers 0 = some (literalMatcher c3Lit) from rfl]
  simp only [c6_m_window]
  decide

/-- C6 counterexample: an 11005-byte file whose first 8 KiB meet the
binary condition, yet the bytes engine (which dispatches files of this
size to the whole-buffer path, whose sniffer samples the entire buffer,
not the first 8 KiB) emits a finding. -/
theorem claim6_counterexample :
    isProbablyBinary (c6File.take 8192) = true ∧
    c6File.length ≤ SMALL_FILE_MAX ∧
    scanOneFileBytes c3Ctx c3Plan (asciiBytes "f", c6File) = [c6Finding] := by
  refine ⟨c6_head_binary, by rw [c6File_length]; decide, ?_⟩
  unfold scanOneFileBytes
  rw [if_pos (by
    show c6File.length ≤ SMALL_FILE_MAX
    rw [c6File_length]
    decide)]
  unfold scanFileBytesPrefilter
  rw [if_neg (by rw [c6_whole_not_binary]; exact Bool.false_ne_true),
    c6_scanBuffer]

/-- First iteration of the chunk loop from the initial state, reduced. -/
theorem scanChunksAux_cons (ctx : ScanCtx) (plan : PrefilterPlan)
    (file fileHash : Bytes) (n : Nat) (restS : List Nat) :
    scanChunksAux ctx plan file fileHash (n :: restS)
      { aborted := false, seen := [], found := [], carry := [],
        fileOffset := 0 }
    = (if readLen file 0 n = 0 then
        ({ aborted := false, seen := [], found := [], carry := [],
           fileOffset := 0 } : ChunkState)
      else if isProbablyBinary ((chunkOf file [] 0 (readLen file 0 n)).take
          (min (chunkOf file [] 0 (readLen file 0 n)).length 8192)) = true then
        scanChunksAux ctx plan file fileHash restS
          { aborted := true, seen := [], found := [], carry := [],
            fileOffset := 0 }
      else
        scanChunksAux ctx plan file fileHash restS
          (chunkStep ctx plan file fileHash
            { aborted := false, seen := [], found := [], carry := [],
              fileOffset := 0 }
            (readLen file 0 n))) := rfl

/-- C6 amended: (i) the binary sniffer holds exactly on a non-empty buffer
containing a NUL byte or with printable count `p` and length `n` such that
`4·p < n` (the `f32` ratio test modelled exactly); an empty buffer is not
binary.  (ii) The whole-buffer path emits zero findings when its own
sample — the entire buffer — is binary, and (iii) the chunked path emits
zero findings when its own sample — the first 8 KiB of the first chunk —
is binary.  The original claim's "first 8 KiB" condition governs only the
chunked path; `claim6_counterexample` shows a small file whose first 8 KiB
are binary yet the engine emits a finding. -/
theorem claim6_amended_binary_skip :
    (∀ buf : Bytes, isProbablyBinary buf = true ↔
      (buf ≠ [] ∧ (buf.any (· == 0) = true ∨
        4 * buf.countP printableByte < buf.length))) ∧
    (∀ (ctx : ScanCtx) (plan : PrefilterPlan) (file fileHash : Bytes),
      isProbablyBinary file = true →
      scanFileBytesPrefilter ctx plan file fileHash = []) ∧
    (∀ (ctx : ScanCtx) (plan : PrefilterPlan) (file fileHash : Bytes)
      (n : Nat) (restS : List Nat),
      isProbablyBinary ((chunkOf file [] 0 (readLen file 0 n)).take
        (min (chunkOf file [] 0 (readLen file 0 n)).length 8192)) = true →
      scanFileBytesChunkedPrefilter ctx plan file fileHash (n :: restS)
        = []) := by
  refine ⟨?_, ?_, ?_⟩
  · intro buf
    cases buf with
    | nil => simp [isProbablyBinary]
    | cons b t =>
      unfold isProbablyBinary
      rw [if_neg (by simp)]
      by_cases h2 : (b :: t).any (· == 0) = true
      · rw [if_pos h2]
        constructor
        · intro _
          exact ⟨by simp, Or.inl h2⟩
        · intro _
          rfl
      · rw [if_neg h2]
        constructor
        · intro h
          exact ⟨by simp, Or.inr (of_decide_eq_true h)⟩
        · rintro ⟨-, h | h⟩
          · exact absurd h h2
          · exact decide_eq_true h
  · intro ctx plan file fileHash h
    unfold scanFileBytesPrefilter
    rw [if_pos h]
  · intro ctx plan file fileHash n restS hbin
    unfold scanFileBytesChunkedPrefilter
    by_cases hr0 : readLen file 0 n = 0
    · rw [scanChunksAux_cons, if_pos hr0]
      rfl
    · rw [scanChunksAux_cons, if_neg hr0, if_pos hbin,
        scanChunksAux_aborted ctx plan file fileHash restS
          { aborted := true, seen := [], found := [], carry := [],
            fileOffset := 0 } rfl]
      rfl

/-- Witness for the amended C6 theorem: the one-byte NUL buffer is binary
by the characterization and the whole-buffer path emits nothing on it. -/
theorem claim6_amended_witness :
    (isProbablyBinary [0] = true ↔ (([0] : Bytes) ≠ [] ∧
      (([0] : Bytes).any (· == 0) = true ∨
        4 * ([0] : Bytes).countP printableByte < ([0] : Bytes).length))) ∧
    scanFileBytesPrefilter c3Ctx c3Plan [0] (asciiBytes "h") = [] :=
  ⟨claim6_amended_binary_skip.1 [0],
   claim6_amended_binary_skip.2.1 c3Ctx c3Plan [0] (asciiBytes "h")
     (by decide)⟩

end KeyHunter
